import Mathlib

/-!
Verification of the File History & Rewind Engine
(src/src/snapshot/FileHistory.ts, src/src/nodeBridge/slices/snapshot.ts,
the checkpoint plugin, and the session journal reader).

The engine is embedded shallowly: the filesystem is a pair of association
lists (working tree and backup store), file contents are lists of lines,
and every operation of `FileHistory` is a pure function threading the
filesystem state.  Wall-clock times are explicit `Nat` parameters.
-/

namespace FileHistSpec

/-- Association-list lookup: first entry whose key matches, mirroring a
lookup in a JS `Map`/`Record` whose keys are kept unique by `setAssoc`. -/
def getAssoc {α : Type} : List (String × α) → String → Option α
  | [], _ => none
  | (k0, v0) :: rest, k => if k0 = k then some v0 else getAssoc rest k

/-- Association-list update with JS `Map.set` semantics: replace the entry
in place if the key is present, append otherwise. -/
def setAssoc {α : Type} (l : List (String × α)) (k : String) (v : α) :
    List (String × α) :=
  match l with
  | [] => [(k, v)]
  | (k0, v0) :: rest =>
    if k0 = k then (k, v) :: rest else (k0, v0) :: setAssoc rest k v

/-- Association-list removal of a key (`fs.unlinkSync`). -/
def eraseAssoc {α : Type} : List (String × α) → String → List (String × α)
  | [], _ => []
  | (k0, v0) :: rest, k =>
    if k0 = k then eraseAssoc rest k else (k0, v0) :: eraseAssoc rest k

/-- A file of the workspace or of the backup store: its content as a list
of lines, plus the stat metadata used by the engine (size, mtime, mode).
Size and mtime are independent fields, as on a real filesystem, so the
metadata fast path of `hasFileChanged` can be stated faithfully. -/
structure File where
  content : List String
  size : Nat
  mtime : Nat
  mode : Nat
deriving DecidableEq, Inhabited

/-- The filesystem visible to one session: the working tree keyed by
relative path, and the session's backup directory keyed by backup file
name (`<backupDir>/<backupFileName>`). -/
structure FS where
  working : List (String × File)
  backups : List (String × File)
deriving DecidableEq, Inhabited

/-- `FileBackupMeta` of src/src/snapshot/types.ts. -/
structure FileBackupMeta where
  backupFileName : Option String
  version : Nat
  backupTime : Nat
deriving DecidableEq, Inhabited

/-- `Snapshot` of src/src/snapshot/types.ts; `trackedFileBackups` is a
`Record<string, FileBackupMeta>` kept as an association list in insertion
order, as `Object.entries` enumerates it. -/
structure Snapshot where
  messageId : String
  timestamp : Nat
  trackedFileBackups : List (String × FileBackupMeta)
deriving DecidableEq, Inhabited

/-- `RewindResult` of src/src/snapshot/types.ts. -/
structure RewindResult where
  success : Bool
  error : Option String
  filesChanged : List String
  insertions : Nat
  deletions : Nat
deriving DecidableEq, Inhabited

/-- The mutable state of a `FileHistory` instance (cwd, sessionId and
backupDir only mediate path normalization and directory layout, which the
association-list filesystem already factors out). -/
structure FileHistory where
  snapshots : List Snapshot
  trackedFiles : List String
  pendingBackups : List (String × FileBackupMeta)
deriving DecidableEq, Inhabited

/-! ## Diff engine

`calculateDiff` of FileHistory.ts calls `diffLines` of the `diff` package
(a Myers diff) and sums the line counts of the added and removed chunks.
A minimal line edit script has `insertions = |new| - |LCS|` and
`deletions = |old| - |LCS|`, which is how the counts are modelled here.
`lcsF` is fuelled so that it is structural and kernel-reducible; the fuel
`|a| + |b|` always suffices. -/

def lcsF : Nat → List String → List String → List String
  | 0, _, _ => []
  | _, [], _ => []
  | _, _ :: _, [] => []
  | fuel + 1, a :: as, b :: bs =>
    if a = b then a :: lcsF fuel as bs
    else
      let l1 := lcsF fuel (a :: as) bs
      let l2 := lcsF fuel as (b :: bs)
      if l2.length ≤ l1.length then l1 else l2

/-- Longest common subsequence of two line lists. -/
def lcs (a b : List String) : List String :=
  lcsF (a.length + b.length) a b

/-- Insertion and deletion line counts between an old (backup) and a new
(working) content, as `diffLines` chunk sums report them. -/
def diffCounts (oldLines newLines : List String) : Nat × Nat :=
  let l := (lcs oldLines newLines).length
  (newLines.length - l, oldLines.length - l)

theorem lcsF_sublist_left : ∀ fuel a b, List.Sublist (lcsF fuel a b) a := by
  intro fuel
  induction fuel with
  | zero => intro a b; simp [lcsF]
  | succ n ih =>
    intro a b
    match a, b with
    | [], _ => simp [lcsF]
    | _ :: _, [] => simp [lcsF]
    | x :: as, y :: bs =>
      simp only [lcsF]
      by_cases hxy : x = y
      · simp only [hxy, if_pos rfl]
        exact (ih as bs).cons₂ y
      · simp only [if_neg hxy]
        by_cases hle : (lcsF n as (y :: bs)).length ≤ (lcsF n (x :: as) bs).length
        · simp only [if_pos hle]; exact ih (x :: as) bs
        · simp only [if_neg hle]; exact (ih as (y :: bs)).cons x

theorem lcsF_sublist_right : ∀ fuel a b, List.Sublist (lcsF fuel a b) b := by
  intro fuel
  induction fuel with
  | zero => intro a b; simp [lcsF]
  | succ n ih =>
    intro a b
    match a, b with
    | [], _ => simp [lcsF]
    | _ :: _, [] => simp [lcsF]
    | x :: as, y :: bs =>
      simp only [lcsF]
      by_cases hxy : x = y
      · simp only [hxy, if_pos rfl]
        exact (ih as bs).cons₂ y
      · simp only [if_neg hxy]
        by_cases hle : (lcsF n as (y :: bs)).length ≤ (lcsF n (x :: as) bs).length
        · simp only [if_pos hle]; exact (ih (x :: as) bs).cons y
        · simp only [if_neg hle]; exact ih as (y :: bs)

theorem lcsF_self : ∀ fuel a, a.length ≤ fuel → lcsF fuel a a = a := by
  intro fuel
  induction fuel with
  | zero =>
    intro a h
    have : a = [] := List.length_eq_zero.mp (Nat.le_zero.mp h)
    simp [this, lcsF]
  | succ n ih =>
    intro a h
    match a with
    | [] => simp [lcsF]
    | x :: as =>
      have hstep : lcsF (n + 1) (x :: as) (x :: as) = x :: lcsF n as as := by
        simp [lcsF]
      rw [hstep, ih as (by simpa using Nat.le_of_succ_le_succ h)]

theorem lcs_self (a : List String) : lcs a a = a := by
  exact lcsF_self _ a (by omega)

theorem diffCounts_eq_zero_iff (a b : List String) :
    diffCounts a b = (0, 0) ↔ a = b := by
  constructor
  · intro h
    have hsl : List.Sublist (lcs a b) a := lcsF_sublist_left _ a b
    have hsr : List.Sublist (lcs a b) b := lcsF_sublist_right _ a b
    have hla : (lcs a b).length ≤ a.length := hsl.length_le
    have hlb : (lcs a b).length ≤ b.length := hsr.length_le
    simp only [diffCounts, Prod.mk.injEq] at h
    have hea : lcs a b = a := hsl.eq_of_length (by omega)
    have heb : lcs a b = b := hsr.eq_of_length (by omega)
    rw [← hea, heb]
  · rintro rfl
    simp [diffCounts, lcs_self]

/-! ## FileHistory operations (src/src/snapshot/FileHistory.ts) -/

/-- `generateBackupFileName`: the source derives
`hex(sha256(relativePath))[0..16] + "@v" + version`.  The truncated hash
is modelled by the relative path itself: like the hash it depends on the
path alone (never on file content), is deterministic, and is injective
per session, so the `(path, version)` keying of the backup store is
preserved exactly. -/
def generateBackupFileName (relativePath : String) (version : Nat) : String :=
  relativePath ++ "@v" ++ toString version

/-- `hasFileChanged`: metadata-first change detection between the working
file at `relPath` and the backup blob named `backupFileName`. -/
def hasFileChanged (fs : FS) (relPath : String)
    (backupFileName : Option String) : Bool :=
  match backupFileName with
  | none => (getAssoc fs.working relPath).isSome
  | some bn =>
    match getAssoc fs.working relPath, getAssoc fs.backups bn with
    | none, b => b.isSome
    | some _, none => true
    | some cur, some back =>
      decide (cur.size ≠ back.size) || decide (cur.mtime ≠ back.mtime)

/-- Writing a blob into the backup store. -/
def fsSetBackup (fs : FS) (name : String) (f : File) : FS :=
  { fs with backups := setAssoc fs.backups name f }

/-- `createBackup`: copy the working file into the backup store (bytes,
mode and mtime are all preserved by `copyFileSync`/`chmodSync`/
`utimesSync`); an absent working file is recorded as a `none` name. -/
def createBackup (fs : FS) (relPath : String) (version : Nat) (now : Nat) :
    FileBackupMeta × FS :=
  let backupFileName := generateBackupFileName relPath version
  match getAssoc fs.working relPath with
  | none =>
    ({ backupFileName := none, version := version, backupTime := now }, fs)
  | some f =>
    ({ backupFileName := some backupFileName, version := version,
       backupTime := now },
     fsSetBackup fs backupFileName f)

/-- The reference backup `trackFile` consults: the entry for the path in
the *immediately previous* snapshot (`this.snapshots[length - 1]`). -/
def latestBackupMeta (h : FileHistory) (relPath : String) :
    Option FileBackupMeta :=
  h.snapshots.getLast?.bind (fun s => getAssoc s.trackedFileBackups relPath)

/-- The version a new pending entry gets:
`(previousBackup?.version || 0) + 1`, where the previous backup comes
from the immediately previous snapshot. -/
def nextVersion (h : FileHistory) (relPath : String) : Nat :=
  ((latestBackupMeta h relPath).map (·.version)).getD 0 + 1

/-- `trackFile` on an already-normalized relative path: add to the
tracked set, and if the working file changed from the reference backup,
copy it into the store and park the metadata as a pending backup. -/
def trackFile (h : FileHistory) (fs : FS) (relPath : String) (now : Nat) :
    FileHistory × FS :=
  let trackedFiles := if relPath ∈ h.trackedFiles then h.trackedFiles
                      else h.trackedFiles ++ [relPath]
  let previousBackup := latestBackupMeta h relPath
  let previousBackupFileName := previousBackup.bind (·.backupFileName)
  if hasFileChanged fs relPath previousBackupFileName then
    let (backup, fs2) := createBackup fs relPath (nextVersion h relPath) now
    ({ h with trackedFiles := trackedFiles,
              pendingBackups := setAssoc h.pendingBackups relPath backup },
     fs2)
  else
    ({ h with trackedFiles := trackedFiles }, fs)

/-- `trackNewFile`: record a file about to be created; no filesystem
access, pending entry with a `none` backup name. -/
def trackNewFile (h : FileHistory) (relPath : String) (now : Nat) :
    FileHistory :=
  let trackedFiles := if relPath ∈ h.trackedFiles then h.trackedFiles
                      else h.trackedFiles ++ [relPath]
  { h with trackedFiles := trackedFiles,
           pendingBackups := setAssoc h.pendingBackups relPath
             { backupFileName := none, version := nextVersion h relPath,
               backupTime := now } }

/-- `hasSnapshot`: linear scan. -/
def hasSnapshot (h : FileHistory) (messageId : String) : Bool :=
  h.snapshots.any (fun s => decide (s.messageId = messageId))

/-- `hasPendingBackups`. -/
def hasPendingBackups (h : FileHistory) : Bool :=
  decide (h.pendingBackups.length > 0)

/-- `createSnapshot`: `null` when no pending backups; otherwise move the
pending map into a new snapshot appended to the list.  The source's
copy loop writes each pending `(path, meta)` pair once into a fresh
record, which reproduces the same association list verbatim. -/
def createSnapshot (h : FileHistory) (messageId : String) (now : Nat) :
    Option Snapshot × FileHistory :=
  if h.pendingBackups = [] then (none, h)
  else
    let snapshot : Snapshot :=
      { messageId := messageId, timestamp := now,
        trackedFileBackups := h.pendingBackups }
    (some snapshot,
     { h with pendingBackups := [],
              snapshots := h.snapshots ++ [snapshot] })

/-- `calculateDiff`: line counts between the working file at `relPath`
and the backup blob (either side absent reads as the empty document). -/
def calculateDiff (fs : FS) (relPath : String)
    (backupFileName : Option String) : Nat × Nat :=
  let current := getAssoc fs.working relPath
  let backup := backupFileName.bind (fun n => getAssoc fs.backups n)
  match current, backup with
  | none, none => (0, 0)
  | c, b =>
    diffCounts ((b.map (·.content)).getD []) ((c.map (·.content)).getD [])

/-- Deleting a working file (`fs.unlinkSync` on the working path). -/
def fsEraseWorking (fs : FS) (relPath : String) : FS :=
  { fs with working := eraseAssoc fs.working relPath }

/-- Writing a file into the working tree. -/
def fsSetWorking (fs : FS) (relPath : String) (f : File) : FS :=
  { fs with working := setAssoc fs.working relPath f }

/-- The file a restore produces: the backup's bytes and mode; the mtime
is fresh (`copyFileSync` does not preserve it and `restoreFile` does not
call `utimesSync`). -/
def restoredFile (f : File) (now : Nat) : File :=
  { content := f.content, size := f.size, mode := f.mode, mtime := now }

/-- `restoreFile`: a `none` backup name means delete the working file; a
named backup is copied back (content, size, mode; the restored file gets
a fresh mtime), failing if the blob is missing. -/
def restoreFile (fs : FS) (relPath : String)
    (backupFileName : Option String) (now : Nat) : Except String FS :=
  match backupFileName with
  | none => .ok (fsEraseWorking fs relPath)
  | some bn =>
    match getAssoc fs.backups bn with
    | none => .error ("Backup file not found: " ++ bn)
    | some f => .ok (fsSetWorking fs relPath (restoredFile f now))

/-- The backup name the rewind loop restores a path to:
`targetBackup?.backupFileName ?? null`. -/
def targetBackupName (target : Snapshot) (relPath : String) :
    Option String :=
  (getAssoc target.trackedFileBackups relPath).bind (·.backupFileName)

/-- Insertion into the JS `Set` of affected files (first occurrence
kept, insertion order preserved). -/
def insertUniq (l : List String) (x : String) : List String :=
  if x ∈ l then l else l ++ [x]

/-- The affected set of a rewind: the target snapshot's keys followed by
the keys of every later snapshot, deduplicated in insertion order. -/
def affectedOf (target : Snapshot) (later : List Snapshot) : List String :=
  (target.trackedFileBackups.map (·.1) ++
    later.flatMap (fun s => s.trackedFileBackups.map (·.1))).foldl
      insertUniq []

/-- The error result both rewind entry points build for an unknown
message id. -/
def snapshotNotFound (messageId : String) : RewindResult :=
  { success := false,
    error := some ("Snapshot not found for message: " ++ messageId),
    filesChanged := [], insertions := 0, deletions := 0 }

/-- The body of `rewindToMessage`'s try block: walk the affected paths,
accumulate diff counts, restore unless `dryRun`, and convert a restore
exception into a failed result carrying the partial counts. -/
def rewindLoop (target : Snapshot) (dryRun : Bool) (now : Nat) :
    List String → FS → List String → Nat → Nat → RewindResult × FS
  | [], fs, files, ins, dels =>
    ({ success := true, error := none, filesChanged := files,
       insertions := ins, deletions := dels }, fs)
  | p :: rest, fs, files, ins, dels =>
    let name := targetBackupName target p
    let d := calculateDiff fs p name
    if d.1 > 0 ∨ d.2 > 0 then
      if dryRun then
        rewindLoop target dryRun now rest fs (files ++ [p]) (ins + d.1)
          (dels + d.2)
      else
        match restoreFile fs p name now with
        | .ok fs2 =>
          rewindLoop target dryRun now rest fs2 (files ++ [p]) (ins + d.1)
            (dels + d.2)
        | .error e =>
          ({ success := false, error := some e,
             filesChanged := files ++ [p], insertions := ins + d.1,
             deletions := dels + d.2 }, fs)
    else
      rewindLoop target dryRun now rest fs files ins dels

/-- `rewindToMessage`.  The inner `none` branch is unreachable: the index
returned by `findIdx?` is always in range, as the source's direct
`this.snapshots[snapshotIndex]` access relies on. -/
def rewindToMessage (h : FileHistory) (fs : FS) (messageId : String)
    (dryRun : Bool) (now : Nat) : RewindResult × FS :=
  match h.snapshots.findIdx? (fun s => decide (s.messageId = messageId)) with
  | none => (snapshotNotFound messageId, fs)
  | some i =>
    match h.snapshots[i]? with
    | none => (snapshotNotFound messageId, fs)
    | some target =>
      rewindLoop target dryRun now
        (affectedOf target (h.snapshots.drop (i + 1))) fs [] 0 0

/-- The non-cumulative preview loop: every entry of the chosen snapshot
is pushed onto `filesChanged`, and its diff counts are summed. -/
def previewLoop (fs : FS) :
    List (String × FileBackupMeta) → List String → Nat → Nat → RewindResult
  | [], files, ins, dels =>
    { success := true, error := none, filesChanged := files,
      insertions := ins, deletions := dels }
  | (p, meta) :: rest, files, ins, dels =>
    let d := calculateDiff fs p meta.backupFileName
    previewLoop fs rest (files ++ [p]) (ins + d.1) (dels + d.2)

/-- `previewRewind`: cumulative mode is exactly
`rewindToMessage(messageId, dryRun = true)`; non-cumulative mode diffs
only the chosen snapshot's own backups and never touches the
filesystem. -/
def previewRewind (h : FileHistory) (fs : FS) (messageId : String)
    (cumulative : Bool) (now : Nat) : RewindResult × FS :=
  if cumulative then rewindToMessage h fs messageId true now
  else
    match h.snapshots.find? (fun s => decide (s.messageId = messageId)) with
    | none => (snapshotNotFound messageId, fs)
    | some snapshot => (previewLoop fs snapshot.trackedFileBackups [] 0 0, fs)

/-- The journal lines the `snapshot.create` request handler
(src/src/nodeBridge/slices/snapshot.ts) appends after `createSnapshot`:
nothing for a `null` snapshot, one serialized snapshot line when the
snapshot holds at least one file. -/
def journalAppends (res : Option Snapshot) : List Snapshot :=
  match res with
  | none => []
  | some s =>
    if s.trackedFileBackups.length > 0 then [s] else []

/-! ## Association-list and affected-set lemmas -/

theorem getAssoc_setAssoc_self {α : Type} (l : List (String × α)) (k : String)
    (v : α) : getAssoc (setAssoc l k v) k = some v := by
  induction l with
  | nil => simp [setAssoc, getAssoc]
  | cons e rest ih =>
    obtain ⟨k0, v0⟩ := e
    by_cases h : k0 = k
    · simp [setAssoc, getAssoc, h]
    · simp [setAssoc, getAssoc, h, ih]

theorem getAssoc_setAssoc_ne {α : Type} (l : List (String × α)) (k k2 : String)
    (v : α) (hne : k2 ≠ k) :
    getAssoc (setAssoc l k v) k2 = getAssoc l k2 := by
  have hkk : ¬ k = k2 := fun h => hne h.symm
  induction l with
  | nil => simp [setAssoc, getAssoc, hkk]
  | cons e rest ih =>
    obtain ⟨k0, v0⟩ := e
    by_cases h : k0 = k
    · simp [setAssoc, getAssoc, h, hkk]
    · by_cases h2 : k0 = k2
      · simp [setAssoc, getAssoc, h, h2, hne]
      · simp [setAssoc, getAssoc, h, h2, ih]

theorem getAssoc_eraseAssoc_self {α : Type} (l : List (String × α))
    (k : String) : getAssoc (eraseAssoc l k) k = none := by
  induction l with
  | nil => simp [eraseAssoc, getAssoc]
  | cons e rest ih =>
    obtain ⟨k0, v0⟩ := e
    by_cases h : k0 = k
    · simp [eraseAssoc, h, ih]
    · simp [eraseAssoc, getAssoc, h, ih]

theorem getAssoc_eraseAssoc_ne {α : Type} (l : List (String × α))
    (k k2 : String) (hne : k2 ≠ k) :
    getAssoc (eraseAssoc l k) k2 = getAssoc l k2 := by
  have hkk : ¬ k = k2 := fun h => hne h.symm
  induction l with
  | nil => simp [eraseAssoc, getAssoc]
  | cons e rest ih =>
    obtain ⟨k0, v0⟩ := e
    by_cases h : k0 = k
    · simp [eraseAssoc, getAssoc, h, hkk, ih]
    · by_cases h2 : k0 = k2
      · simp [eraseAssoc, getAssoc, h, h2, hne]
      · simp [eraseAssoc, getAssoc, h, h2, ih]

theorem mem_insertUniq (l : List String) (x y : String) :
    y ∈ insertUniq l x ↔ y ∈ l ∨ y = x := by
  by_cases h : x ∈ l
  · simp only [insertUniq, if_pos h]
    constructor
    · exact Or.inl
    · rintro (hy | rfl)
      · exact hy
      · exact h
  · simp [insertUniq, if_neg h]

theorem nodup_insertUniq (l : List String) (x : String) (hl : l.Nodup) :
    (insertUniq l x).Nodup := by
  by_cases h : x ∈ l
  · simpa [insertUniq, if_pos h] using hl
  · simp [insertUniq, if_neg h, List.nodup_append, hl, h]

theorem nodup_foldl_insertUniq (ks : List String) :
    ∀ acc : List String, acc.Nodup → (ks.foldl insertUniq acc).Nodup := by
  induction ks with
  | nil => intro acc h; simpa using h
  | cons k rest ih =>
    intro acc h
    exact ih (insertUniq acc k) (nodup_insertUniq acc k h)

theorem mem_foldl_insertUniq (ks : List String) :
    ∀ (acc : List String) (y : String),
      y ∈ ks.foldl insertUniq acc ↔ y ∈ acc ∨ y ∈ ks := by
  induction ks with
  | nil => intro acc y; simp
  | cons k rest ih =>
    intro acc y
    rw [List.foldl_cons, ih, mem_insertUniq]
    constructor
    · rintro ((hy | rfl) | hy)
      · exact Or.inl hy
      · simp
      · simp [hy]
    · rintro (hy | hy)
      · exact Or.inl (Or.inl hy)
      · rcases List.mem_cons.mp hy with rfl | hy
        · exact Or.inl (Or.inr rfl)
        · exact Or.inr hy

theorem nodup_affectedOf (target : Snapshot) (later : List Snapshot) :
    (affectedOf target later).Nodup :=
  nodup_foldl_insertUniq _ [] List.nodup_nil

theorem mem_affectedOf (target : Snapshot) (later : List Snapshot)
    (y : String) :
    y ∈ affectedOf target later ↔
      y ∈ target.trackedFileBackups.map (·.1) ∨
        ∃ s ∈ later, y ∈ s.trackedFileBackups.map (·.1) := by
  unfold affectedOf
  rw [mem_foldl_insertUniq]
  simp [List.mem_flatMap]

/-! ## Concrete scenarios

A tiny workspace used to evaluate the engine on explicit inputs: one
tracked file `p.txt`, one empty file `t.txt`, and the operation
sequences the counterexamples below exercise. -/

/-- An empty working file (zero bytes, hence zero lines). -/
def emptyFile : File := { content := [], size := 0, mtime := 5, mode := 420 }

/-- A one-line working file. -/
def fileA : File := { content := ["A"], size := 1, mtime := 5, mode := 420 }

/-- A modified two-line version of the same path. -/
def fileBC : File := { content := ["B", "C"], size := 4, mtime := 9, mode := 420 }

/-- A fresh `FileHistory` (no snapshots, nothing pending). -/
def freshHistory : FileHistory :=
  { snapshots := [], trackedFiles := [], pendingBackups := [] }

/-- Workspace holding only the empty `t.txt`. -/
def fsEmptyT : FS := { working := [("t.txt", emptyFile)], backups := [] }

/-- Workspace holding only `p.txt` with content `["A"]`. -/
def fsA : FS := { working := [("p.txt", fileA)], backups := [] }

/-- Scenario E1 (empty-file round trip): track the empty `t.txt`,
snapshot `m1`, delete `t.txt`, rewind to `m1`. -/
def e1Track := trackFile freshHistory fsEmptyT "t.txt" 10

def e1Snap := createSnapshot e1Track.1 "m1" 11

def e1Deleted : FS :=
  { e1Track.2 with working := eraseAssoc e1Track.2.working "t.txt" }

def e1Rewind := rewindToMessage e1Snap.2 e1Deleted "m1" false 12

/-- Scenario E2 (version reset / implicit carry-over): track `p.txt`,
snapshot `m1`; track the new `q.txt`, snapshot `m2`; modify `p.txt`,
track it again, snapshot `m3`. -/
def e2TrackP := trackFile freshHistory fsA "p.txt" 1

def e2SnapM1 := createSnapshot e2TrackP.1 "m1" 2

def e2TrackQ := trackNewFile e2SnapM1.2 "q.txt" 3

def e2SnapM2 := createSnapshot e2TrackQ "m2" 4

def e2FsModified : FS :=
  { e2TrackP.2 with working := setAssoc e2TrackP.2.working "p.txt" fileBC }

def e2TrackP2 := trackFile e2SnapM2.2 e2FsModified "p.txt" 5

def e2SnapM3 := createSnapshot e2TrackP2.1 "m3" 6

/-- Scenario E2 continued: rewind the three-snapshot history to `m2`. -/
def e2Rewind := rewindToMessage e2SnapM3.2 e2FsModified "m2" false 20

/-- Scenario E3 (repeated messageId through the `snapshot.create`
request handler, which calls `createSnapshot` without a `hasSnapshot`
guard): snapshot `m1` twice with a modification in between. -/
def e3SnapM1 := createSnapshot e2TrackP.1 "m1" 2

def e3TrackAgain := trackFile e3SnapM1.2 e2FsModified "p.txt" 3

def e3SnapM1Again := createSnapshot e3TrackAgain.1 "m1" 4

/-! ## Counterexamples -/

/-- C1 counterexample: `t.txt` is empty when tracked.  After
`trackFile; createSnapshot "m1"; delete t.txt`, the rewind to `m1`
reports success but does *not* recreate `t.txt`: the diff between the
absent working file and the empty backup is `(0, 0)`, so the restore
step is skipped and the file stays deleted, contradicting the claim
that a deleted tracked file is always recreated with the backed-up
content. -/
theorem c1_counterexample :
    e1Rewind.1.success = true ∧
      getAssoc e1Rewind.2.working "t.txt" = none ∧
      getAssoc e1Snap.2.snapshots.head!.trackedFileBackups "t.txt" ≠ none := by
  decide

/-- C2 counterexample: with snapshots `m1{p.txt}`, `m2{q.txt}`,
`m3{p.txt}`, rewinding to `m2` treats `p.txt` (affected via `m3` but
absent from `m2`) as "should not exist" and deletes it, even though the
earlier snapshot `m1` recorded `p.txt` — the code never consults
snapshots before the target, contradicting the claim that the prior
state is preserved by whatever earlier snapshot last recorded the
path. -/
theorem c2_counterexample :
    e2Rewind.1.success = true ∧
      "p.txt" ∈ e2Rewind.1.filesChanged ∧
      getAssoc e2Rewind.2.working "p.txt" = none ∧
      getAssoc e2SnapM3.2.snapshots.head!.trackedFileBackups "p.txt" ≠
        none := by
  decide

/-- The version numbers a path carries across the ordered snapshot
list. -/
def versionsOf (h : FileHistory) (relPath : String) : List Nat :=
  h.snapshots.filterMap
    (fun s => (getAssoc s.trackedFileBackups relPath).map (·.version))

/-- Strict increase along a list of version numbers. -/
def strictlyIncreasing : List Nat → Bool
  | [] => true
  | [_] => true
  | a :: b :: rest => decide (a < b) && strictlyIncreasing (b :: rest)

/-- C3 counterexample: `p.txt` is recorded by snapshot `m1` with
version 1; after the intervening snapshot `m2` (which does not mention
`p.txt`), tracking `p.txt` again consults only the last snapshot, finds
no entry, and restarts at version 1 — so the versions of `p.txt` across
the snapshot list are `[1, 1]`, not strictly increasing. -/
theorem c3_counterexample :
    versionsOf e2SnapM3.2 "p.txt" = [1, 1] ∧
      strictlyIncreasing (versionsOf e2SnapM3.2 "p.txt") = false := by
  decide

/-- C4 counterexample: after snapshots `m1{p.txt}` and `m2{q.txt}`, the
working `p.txt` still has exactly the size and mtime of its latest
backup (the one recorded by `m1`).  The claim says `trackFile` then
returns without adding a pending entry; the code consults only the last
snapshot (`m2`, which lacks `p.txt`), treats the file as changed, and
installs a pending entry (restarted at version 1). -/
theorem c4_counterexample :
    (∃ meta, getAssoc e2SnapM1.2.snapshots.head!.trackedFileBackups "p.txt" =
        some meta ∧
      ∃ bn, meta.backupFileName = some bn ∧
        ∃ bf, getAssoc e2TrackP.2.backups bn = some bf ∧
          bf.size = fileA.size ∧ bf.mtime = fileA.mtime) ∧
      getAssoc (trackFile e2SnapM2.2 e2TrackP.2 "p.txt" 7).1.pendingBackups
          "p.txt" ≠ none := by
  decide

/-- C7 counterexample: rewinding to an unknown message id returns the
error string `"Snapshot not found for message: nope"`, not the literal
`"Snapshot not found"` stated by the claim. -/
theorem c7_counterexample :
    (rewindToMessage e2SnapM1.2 fsA "nope" false 9).1.error ≠
        some "Snapshot not found" ∧
      (rewindToMessage e2SnapM1.2 fsA "nope" false 9).1.success = false := by
  decide

/-- C8 counterexample: the `snapshot.create` request handler calls
`createSnapshot(messageId)` without checking `hasSnapshot` first, so
creating a snapshot for `m1` twice (with a tracked modification in
between) yields the message-id list `["m1", "m1"]` — uniqueness within
the snapshot list is violated. -/
theorem c8_counterexample :
    e3SnapM1Again.2.snapshots.map (·.messageId) = ["m1", "m1"] ∧
      ¬ (e3SnapM1Again.2.snapshots.map (·.messageId)).Nodup := by
  decide

/-! ## Basic operation lemmas -/

theorem createBackup_version (fs : FS) (p : String) (v now : Nat) :
    (createBackup fs p v now).1.version = v := by
  unfold createBackup
  cases getAssoc fs.working p <;> simp

theorem createBackup_working (fs : FS) (p : String) (v now : Nat) :
    (createBackup fs p v now).2.working = fs.working := by
  unfold createBackup
  cases getAssoc fs.working p <;> simp [fsSetBackup]

/-- C6: `createSnapshot` returns `null` exactly when the pending set is
empty, and then the `snapshot.create` handler appends no journal line;
otherwise the new snapshot carries precisely the pending backups; in
both cases nothing is pending afterwards. -/
theorem c6_createSnapshot_contract (h : FileHistory) (m : String) (t : Nat) :
    (createSnapshot h m t).1 =
      (if h.pendingBackups = [] then none
       else some { messageId := m, timestamp := t,
                   trackedFileBackups := h.pendingBackups }) ∧
    journalAppends (createSnapshot h m t).1 =
      (if h.pendingBackups = [] then []
       else [{ messageId := m, timestamp := t,
               trackedFileBackups := h.pendingBackups }]) ∧
    hasPendingBackups (createSnapshot h m t).2 = false := by
  by_cases hp : h.pendingBackups = []
  · simp [createSnapshot, journalAppends, hasPendingBackups, hp]
  · refine ⟨by simp [createSnapshot, hp], ?_, ?_⟩
    · have hlen : 0 < h.pendingBackups.length := List.length_pos.mpr hp
      simp [createSnapshot, journalAppends, hp, hlen]
    · simp [createSnapshot, hasPendingBackups, hp]

/-- C3 amended: the version law the code obeys is local to the
*immediately previous* snapshot: when the last snapshot records the path
with version `v`, a new pending entry produced by `trackFile` or
`trackNewFile` carries version `v + 1` (strictly larger); nothing
relates versions across an intervening snapshot that omits the path. -/
theorem c3_amended (h : FileHistory) (fs : FS) (p : String) (t : Nat)
    (s : Snapshot) (meta : FileBackupMeta)
    (hlast : h.snapshots.getLast? = some s)
    (hmeta : getAssoc s.trackedFileBackups p = some meta)
    (hpnone : getAssoc h.pendingBackups p = none) :
    (∀ e, getAssoc (trackFile h fs p t).1.pendingBackups p = some e →
      e.version = meta.version + 1) ∧
    (∃ e, getAssoc (trackNewFile h p t).pendingBackups p = some e ∧
      e.version = meta.version + 1) := by
  have hlatest : latestBackupMeta h p = some meta := by
    simp [latestBackupMeta, hlast, hmeta]
  constructor
  · intro e he
    by_cases hch : hasFileChanged fs p meta.backupFileName = true
    · have hpend : (trackFile h fs p t).1.pendingBackups =
          setAssoc h.pendingBackups p
            (createBackup fs p (meta.version + 1) t).1 := by
        simp [trackFile, nextVersion, hlatest, hch]
      rw [hpend, getAssoc_setAssoc_self, Option.some.injEq] at he
      rw [← he]
      exact createBackup_version fs p (meta.version + 1) t
    · have hpend : (trackFile h fs p t).1.pendingBackups =
          h.pendingBackups := by
        simp [trackFile, hlatest, hch]
      rw [hpend, hpnone] at he
      exact absurd he (by simp)
  · have hpend : (trackNewFile h p t).pendingBackups =
        setAssoc h.pendingBackups p
          { backupFileName := none, version := meta.version + 1,
            backupTime := t } := by
      simp [trackNewFile, nextVersion, hlatest]
    exact ⟨_, by rw [hpend, getAssoc_setAssoc_self], rfl⟩

/-- C4 amended: the reference `trackFile` consults is the entry of the
*immediately previous* snapshot only.  When that snapshot records the
path and the working file's size and mtime equal the referenced backup
blob's, `trackFile` adds no pending entry and leaves the filesystem
untouched (the metadata fast path reports "unchanged"). -/
theorem c4_amended (h : FileHistory) (fs : FS) (p : String) (t : Nat)
    (s : Snapshot) (meta : FileBackupMeta) (bn : String) (bf wf : File)
    (hlast : h.snapshots.getLast? = some s)
    (hmeta : getAssoc s.trackedFileBackups p = some meta)
    (hname : meta.backupFileName = some bn)
    (hblob : getAssoc fs.backups bn = some bf)
    (hwork : getAssoc fs.working p = some wf)
    (hsize : wf.size = bf.size) (hmtime : wf.mtime = bf.mtime) :
    (trackFile h fs p t).1.pendingBackups = h.pendingBackups ∧
      (trackFile h fs p t).2 = fs := by
  have hlatest : latestBackupMeta h p = some meta := by
    simp [latestBackupMeta, hlast, hmeta]
  have hunchanged : hasFileChanged fs p meta.backupFileName = false := by
    rw [hname]
    simp [hasFileChanged, hwork, hblob, hsize, hmtime]
  constructor
  · simp [trackFile, hlatest, hunchanged]
  · simp [trackFile, hlatest, hunchanged]

theorem findIdx?_eq_none_all {α : Type} (p : α → Bool) (l : List α)
    (h : ∀ x ∈ l, p x = false) : ∀ i, List.findIdx? p l i = none := by
  induction l with
  | nil => intro i; rfl
  | cons x rest ih =>
    intro i
    have hx : p x = false := h x (by simp)
    simp only [List.findIdx?, hx]
    exact ih (fun y hy => h y (by simp [hy])) (i + 1)

theorem findIdx?_eq_none_of {α : Type} (p : α → Bool) (l : List α)
    (h : ∀ x ∈ l, p x = false) : l.findIdx? p = none :=
  findIdx?_eq_none_all p l h 0

theorem find?_eq_none_of {α : Type} (p : α → Bool) (l : List α)
    (h : ∀ x ∈ l, p x = false) : l.find? p = none := by
  induction l with
  | nil => rfl
  | cons x rest ih =>
    have hx : p x = false := h x (by simp)
    simp only [List.find?, hx]
    exact ih (fun y hy => h y (by simp [hy]))

/-- C7 amended: for an unknown message id both `rewindToMessage` and
`previewRewind` (either mode) return the structured error result with
`success = false`, the error string
`"Snapshot not found for message: <id>"` (the id is appended — the
message is not the bare literal `"Snapshot not found"`), empty
`filesChanged`, zero counts, and they leave the filesystem unchanged;
no exception escapes to the caller. -/
theorem c7_amended (h : FileHistory) (fs : FS) (m : String) (c : Bool)
    (t : Nat) (hnone : ∀ s ∈ h.snapshots, s.messageId ≠ m) :
    rewindToMessage h fs m false t = (snapshotNotFound m, fs) ∧
      previewRewind h fs m c t = (snapshotNotFound m, fs) ∧
      (snapshotNotFound m).success = false ∧
      (snapshotNotFound m).error =
        some ("Snapshot not found for message: " ++ m) ∧
      (snapshotNotFound m).filesChanged = [] ∧
      (snapshotNotFound m).insertions = 0 ∧
      (snapshotNotFound m).deletions = 0 := by
  have hfi : h.snapshots.findIdx?
      (fun s => decide (s.messageId = m)) = none :=
    findIdx?_eq_none_of _ _ (fun s hs => by simp [hnone s hs])
  have hfd : h.snapshots.find?
      (fun s => decide (s.messageId = m)) = none :=
    find?_eq_none_of _ _ (fun s hs => by simp [hnone s hs])
  refine ⟨?_, ?_, rfl, rfl, rfl, rfl, rfl⟩
  · simp [rewindToMessage, hfi]
  · cases c
    · simp [previewRewind, hfd]
    · simp [previewRewind, rewindToMessage, hfi]

/-- Non-decreasing check over a list of timestamps. -/
def nondecreasing : List Nat → Bool
  | [] => true
  | [_] => true
  | a :: b :: rest => decide (a ≤ b) && nondecreasing (b :: rest)

theorem nondecreasing_append_singleton (l : List Nat) (t : Nat)
    (hl : nondecreasing l = true) (hlast : ∀ x ∈ l, x ≤ t) :
    nondecreasing (l ++ [t]) = true := by
  induction l with
  | nil => rfl
  | cons a rest ih =>
    cases rest with
    | nil =>
      have : a ≤ t := hlast a (by simp)
      simp [nondecreasing, this]
    | cons b rest2 =>
      simp only [nondecreasing, Bool.and_eq_true, decide_eq_true_eq] at hl
      have hr := ih hl.2 (fun x hx => hlast x (by simp [hx]))
      simp only [List.cons_append, nondecreasing, Bool.and_eq_true,
        decide_eq_true_eq]
      exact ⟨hl.1, by simpa using hr⟩

/-- C8 amended: `createSnapshot` appends unconditionally, so the list
stays in append order and timestamps stay non-decreasing under a
monotone clock; message-id uniqueness, however, is only preserved when
the caller checks `hasSnapshot` first — the checkpoint plugin does, but
the `snapshot.create` request handler does not, so a repeated
`messageId` through that handler duplicates the id (see the
counterexample). -/
theorem c8_amended (h : FileHistory) (m : String) (t : Nat)
    (snap : Snapshot) (h2 : FileHistory)
    (hcs : createSnapshot h m t = (some snap, h2))
    (hfresh : hasSnapshot h m = false)
    (hnodup : (h.snapshots.map (·.messageId)).Nodup)
    (hmono : ∀ s ∈ h.snapshots, s.timestamp ≤ t)
    (hord : nondecreasing (h.snapshots.map (·.timestamp)) = true) :
    h2.snapshots = h.snapshots ++ [snap] ∧
      snap.messageId = m ∧ snap.timestamp = t ∧
      (h2.snapshots.map (·.messageId)).Nodup ∧
      nondecreasing (h2.snapshots.map (·.timestamp)) = true := by
  by_cases hp : h.pendingBackups = []
  · have : (none : Option Snapshot) = some snap := by
      have := hcs
      simp only [createSnapshot, hp, if_true, Prod.mk.injEq] at this
      exact this.1
    cases this
  · have hpair := hcs
    simp only [createSnapshot, hp, if_false, Prod.mk.injEq,
      Option.some.injEq] at hpair
    have hmid : snap.messageId = m := by rw [← hpair.1]
    have hts : snap.timestamp = t := by rw [← hpair.1]
    have hh2 : h2.snapshots = h.snapshots ++ [snap] := by
      rw [← hpair.2]
      simp [hpair.1]
    have hnotin : m ∉ h.snapshots.map (·.messageId) := by
      intro hmem
      obtain ⟨s, hs, hsm⟩ := List.mem_map.mp hmem
      have hany : h.snapshots.any (fun x => decide (x.messageId = m)) = true :=
        List.any_eq_true.mpr ⟨s, hs, by simp [hsm]⟩
      unfold hasSnapshot at hfresh
      rw [hfresh] at hany
      cases hany
    refine ⟨hh2, hmid, hts, ?_, ?_⟩
    · rw [hh2]
      simp only [List.map_append, List.map_cons, List.map_nil]
      rw [List.nodup_append]
      refine ⟨hnodup, by simp, ?_⟩
      intro x hx
      simp only [List.mem_singleton]
      intro hx2
      rw [hx2, hmid] at hx
      exact hnotin hx
    · rw [hh2]
      simp only [List.map_append, List.map_cons, List.map_nil, hts]
      exact nondecreasing_append_singleton _ t hord
        (by
          intro x hx
          obtain ⟨s, hs, hsx⟩ := List.mem_map.mp hx
          exact hsx ▸ hmono s hs)

/-! ## Rewind-loop lemmas -/

theorem restoreFile_ok_backups (fs : FS) (p : String) (name : Option String)
    (now : Nat) (fs2 : FS) (h : restoreFile fs p name now = .ok fs2) :
    fs2.backups = fs.backups := by
  cases name with
  | none =>
    simp only [restoreFile, Except.ok.injEq] at h
    rw [← h]
    simp [fsEraseWorking]
  | some bn =>
    cases hb : getAssoc fs.backups bn with
    | none => simp [restoreFile, hb] at h
    | some f =>
      simp only [restoreFile, hb, Except.ok.injEq] at h
      rw [← h]
      simp [fsSetWorking]

theorem restoreFile_ok_working_ne (fs : FS) (p : String)
    (name : Option String) (now : Nat) (fs2 : FS) (q : String)
    (h : restoreFile fs p name now = .ok fs2) (hq : q ≠ p) :
    getAssoc fs2.working q = getAssoc fs.working q := by
  cases name with
  | none =>
    simp only [restoreFile, Except.ok.injEq] at h
    rw [← h]
    simp only [fsEraseWorking]
    exact getAssoc_eraseAssoc_ne _ _ _ hq
  | some bn =>
    cases hb : getAssoc fs.backups bn with
    | none => simp [restoreFile, hb] at h
    | some f =>
      simp only [restoreFile, hb, Except.ok.injEq] at h
      rw [← h]
      simp only [fsSetWorking]
      exact getAssoc_setAssoc_ne _ _ _ _ hq

theorem calculateDiff_congr (fs1 fs2 : FS) (p : String)
    (name : Option String)
    (hw : getAssoc fs1.working p = getAssoc fs2.working p)
    (hb : fs1.backups = fs2.backups) :
    calculateDiff fs1 p name = calculateDiff fs2 p name := by
  unfold calculateDiff
  rw [hw, hb]

/-- A dry rewind never touches the filesystem. -/
theorem rewindLoop_dry_fs (target : Snapshot) (now : Nat) :
    ∀ (paths : List String) (fs : FS) (files : List String) (ins dels : Nat),
      (rewindLoop target true now paths fs files ins dels).2 = fs := by
  intro paths
  induction paths with
  | nil => intro fs files ins dels; rfl
  | cons p rest ih =>
    intro fs files ins dels
    by_cases hd : (calculateDiff fs p (targetBackupName target p)).1 > 0 ∨
        (calculateDiff fs p (targetBackupName target p)).2 > 0
    · simp only [rewindLoop, if_pos hd, if_pos rfl]
      exact ih fs (files ++ [p]) _ _
    · simp only [rewindLoop, if_neg hd]
      exact ih fs files ins dels


theorem restoreFile_none_ok (fs : FS) (p : String) (now : Nat) :
    restoreFile fs p none now = .ok (fsEraseWorking fs p) := rfl

theorem restoreFile_some_ok (fs : FS) (p bn : String) (now : Nat) (f : File)
    (hbn : getAssoc fs.backups bn = some f) :
    restoreFile fs p (some bn) now =
      .ok (fsSetWorking fs p (restoredFile f now)) := by
  simp [restoreFile, hbn]

theorem rewindLoop_cons_zero (target : Snapshot) (dry : Bool) (now : Nat)
    (p : String) (rest : List String) (fs : FS) (files : List String)
    (ins dels : Nat)
    (hd : ¬ ((calculateDiff fs p (targetBackupName target p)).1 > 0 ∨
      (calculateDiff fs p (targetBackupName target p)).2 > 0)) :
    rewindLoop target dry now (p :: rest) fs files ins dels =
      rewindLoop target dry now rest fs files ins dels := by
  simp [rewindLoop, hd]

theorem rewindLoop_cons_dry (target : Snapshot) (now : Nat)
    (p : String) (rest : List String) (fs : FS) (files : List String)
    (ins dels : Nat)
    (hd : (calculateDiff fs p (targetBackupName target p)).1 > 0 ∨
      (calculateDiff fs p (targetBackupName target p)).2 > 0) :
    rewindLoop target true now (p :: rest) fs files ins dels =
      rewindLoop target true now rest fs (files ++ [p])
        (ins + (calculateDiff fs p (targetBackupName target p)).1)
        (dels + (calculateDiff fs p (targetBackupName target p)).2) := by
  simp [rewindLoop, hd]

theorem rewindLoop_cons_wet_ok (target : Snapshot) (now : Nat)
    (p : String) (rest : List String) (fs fs2 : FS) (files : List String)
    (ins dels : Nat)
    (hd : (calculateDiff fs p (targetBackupName target p)).1 > 0 ∨
      (calculateDiff fs p (targetBackupName target p)).2 > 0)
    (hok : restoreFile fs p (targetBackupName target p) now = .ok fs2) :
    rewindLoop target false now (p :: rest) fs files ins dels =
      rewindLoop target false now rest fs2 (files ++ [p])
        (ins + (calculateDiff fs p (targetBackupName target p)).1)
        (dels + (calculateDiff fs p (targetBackupName target p)).2) := by
  simp [rewindLoop, hd, hok]

theorem rewindLoop_cons_wet_err (target : Snapshot) (now : Nat)
    (p : String) (rest : List String) (fs : FS) (files : List String)
    (ins dels : Nat) (e : String)
    (hd : (calculateDiff fs p (targetBackupName target p)).1 > 0 ∨
      (calculateDiff fs p (targetBackupName target p)).2 > 0)
    (herr : restoreFile fs p (targetBackupName target p) now = .error e) :
    rewindLoop target false now (p :: rest) fs files ins dels =
      ({ success := false, error := some e, filesChanged := files ++ [p],
         insertions := ins + (calculateDiff fs p (targetBackupName target p)).1,
         deletions := dels +
           (calculateDiff fs p (targetBackupName target p)).2 }, fs) := by
  simp [rewindLoop, hd, herr]

/-- The result of the loop only depends on the working entries of the
paths still to process (and on the backup store). -/
theorem rewindLoop_congr (target : Snapshot) (dry : Bool) (now : Nat) :
    ∀ (paths : List String) (fs1 fs2 : FS) (files : List String)
      (ins dels : Nat),
      (∀ q ∈ paths, getAssoc fs1.working q = getAssoc fs2.working q) →
      fs1.backups = fs2.backups →
      (rewindLoop target dry now paths fs1 files ins dels).1 =
        (rewindLoop target dry now paths fs2 files ins dels).1 := by
  intro paths
  induction paths with
  | nil => intro fs1 fs2 files ins dels hag hb; rfl
  | cons p rest ih =>
    intro fs1 fs2 files ins dels hag hb
    have hdiff : calculateDiff fs1 p (targetBackupName target p) =
        calculateDiff fs2 p (targetBackupName target p) :=
      calculateDiff_congr fs1 fs2 p _ (hag p (by simp)) hb
    have hagr : ∀ q ∈ rest, getAssoc fs1.working q = getAssoc fs2.working q :=
      fun q hq => hag q (by simp [hq])
    by_cases hd : (calculateDiff fs1 p (targetBackupName target p)).1 > 0 ∨
        (calculateDiff fs1 p (targetBackupName target p)).2 > 0
    · have hd2 : (calculateDiff fs2 p (targetBackupName target p)).1 > 0 ∨
          (calculateDiff fs2 p (targetBackupName target p)).2 > 0 := by
        rw [← hdiff]; exact hd
      cases dry with
      | true =>
        rw [rewindLoop_cons_dry target now p rest fs1 files ins dels hd,
          rewindLoop_cons_dry target now p rest fs2 files ins dels hd2, hdiff]
        exact ih fs1 fs2 _ _ _ hagr hb
      | false =>
        cases hname : targetBackupName target p with
        | none =>
          have hok1 : restoreFile fs1 p (targetBackupName target p) now =
              .ok (fsEraseWorking fs1 p) := by
            rw [hname]; exact restoreFile_none_ok fs1 p now
          have hok2 : restoreFile fs2 p (targetBackupName target p) now =
              .ok (fsEraseWorking fs2 p) := by
            rw [hname]; exact restoreFile_none_ok fs2 p now
          rw [rewindLoop_cons_wet_ok target now p rest fs1 _ files ins dels
              hd hok1,
            rewindLoop_cons_wet_ok target now p rest fs2 _ files ins dels
              hd2 hok2, hdiff]
          apply ih
          · intro q hq
            simp only [fsEraseWorking]
            by_cases hqp : q = p
            · rw [hqp]
              simp [getAssoc_eraseAssoc_self]
            · simp only [getAssoc_eraseAssoc_ne _ _ _ hqp]
              exact hagr q hq
          · exact hb
        | some bn =>
          cases hbn : getAssoc fs1.backups bn with
          | none =>
            have hbn2 : getAssoc fs2.backups bn = none := by rw [← hb, hbn]
            have herr1 : restoreFile fs1 p (targetBackupName target p) now =
                .error ("Backup file not found: " ++ bn) := by
              rw [hname]; simp [restoreFile, hbn]
            have herr2 : restoreFile fs2 p (targetBackupName target p) now =
                .error ("Backup file not found: " ++ bn) := by
              rw [hname]; simp [restoreFile, hbn2]
            rw [rewindLoop_cons_wet_err target now p rest fs1 files ins dels
                _ hd herr1,
              rewindLoop_cons_wet_err target now p rest fs2 files ins dels
                _ hd2 herr2, hdiff]
          | some f =>
            have hbn2 : getAssoc fs2.backups bn = some f := by rw [← hb, hbn]
            have hok1 : restoreFile fs1 p (targetBackupName target p) now =
                .ok (fsSetWorking fs1 p (restoredFile f now)) := by
              rw [hname]; exact restoreFile_some_ok fs1 p bn now f hbn
            have hok2 : restoreFile fs2 p (targetBackupName target p) now =
                .ok (fsSetWorking fs2 p (restoredFile f now)) := by
              rw [hname]; exact restoreFile_some_ok fs2 p bn now f hbn2
            rw [rewindLoop_cons_wet_ok target now p rest fs1 _ files ins dels
                hd hok1,
              rewindLoop_cons_wet_ok target now p rest fs2 _ files ins dels
                hd2 hok2, hdiff]
            apply ih
            · intro q hq
              simp only [fsSetWorking]
              by_cases hqp : q = p
              · rw [hqp]
                simp [getAssoc_setAssoc_self]
              · simp only [getAssoc_setAssoc_ne _ _ _ _ hqp]
                exact hagr q hq
            · exact hb
    · have hd2 : ¬ ((calculateDiff fs2 p (targetBackupName target p)).1 > 0 ∨
          (calculateDiff fs2 p (targetBackupName target p)).2 > 0) := by
        rw [← hdiff]; exact hd
      rw [rewindLoop_cons_zero target dry now p rest fs1 files ins dels hd,
        rewindLoop_cons_zero target dry now p rest fs2 files ins dels hd2]
      exact ih fs1 fs2 files ins dels hagr hb

/-- A dry and a wet pass over the same distinct paths report identical
results, provided every named target backup resolves in the store. -/
theorem rewindLoop_dry_eq_wet (target : Snapshot) (now : Nat) :
    ∀ (paths : List String) (fs : FS) (files : List String) (ins dels : Nat),
      paths.Nodup →
      (∀ p ∈ paths, ∀ bn, targetBackupName target p = some bn →
        (getAssoc fs.backups bn).isSome) →
      (rewindLoop target true now paths fs files ins dels).1 =
        (rewindLoop target false now paths fs files ins dels).1 := by
  intro paths
  induction paths with
  | nil => intro fs files ins dels hnd hres; rfl
  | cons p rest ih =>
    intro fs files ins dels hnd hres
    have hndr : rest.Nodup := (List.nodup_cons.mp hnd).2
    have hpnr : p ∉ rest := (List.nodup_cons.mp hnd).1
    have hresr : ∀ q ∈ rest, ∀ bn, targetBackupName target q = some bn →
        (getAssoc fs.backups bn).isSome :=
      fun q hq bn hbn => hres q (by simp [hq]) bn hbn
    have hqne : ∀ q ∈ rest, q ≠ p :=
      fun q hq hqp => hpnr (by rw [← hqp]; exact hq)
    by_cases hd : (calculateDiff fs p (targetBackupName target p)).1 > 0 ∨
        (calculateDiff fs p (targetBackupName target p)).2 > 0
    · cases hname : targetBackupName target p with
      | none =>
        have hok : restoreFile fs p (targetBackupName target p) now =
            .ok (fsEraseWorking fs p) := by
          rw [hname]; exact restoreFile_none_ok fs p now
        rw [rewindLoop_cons_dry target now p rest fs files ins dels hd,
          rewindLoop_cons_wet_ok target now p rest fs _ files ins dels
            hd hok]
        have hcongr := rewindLoop_congr target true now rest fs
          (fsEraseWorking fs p) (files ++ [p])
          (ins + (calculateDiff fs p (targetBackupName target p)).1)
          (dels + (calculateDiff fs p (targetBackupName target p)).2)
          (by
            intro q hq
            simp only [fsEraseWorking]
            exact (getAssoc_eraseAssoc_ne _ _ _ (hqne q hq)).symm)
          rfl
        rw [hcongr]
        exact ih (fsEraseWorking fs p) _ _ _ hndr
          (fun q hq bn hbn => hresr q hq bn hbn)
      | some bn =>
        have hsome := hres p (by simp) bn hname
        cases hbn : getAssoc fs.backups bn with
        | none => rw [hbn] at hsome; cases hsome
        | some f =>
          have hok : restoreFile fs p (targetBackupName target p) now =
              .ok (fsSetWorking fs p (restoredFile f now)) := by
            rw [hname]; exact restoreFile_some_ok fs p bn now f hbn
          rw [rewindLoop_cons_dry target now p rest fs files ins dels hd,
            rewindLoop_cons_wet_ok target now p rest fs _ files ins dels
              hd hok]
          have hcongr := rewindLoop_congr target true now rest fs
            (fsSetWorking fs p (restoredFile f now)) (files ++ [p])
            (ins + (calculateDiff fs p (targetBackupName target p)).1)
            (dels + (calculateDiff fs p (targetBackupName target p)).2)
            (by
              intro q hq
              simp only [fsSetWorking]
              exact (getAssoc_setAssoc_ne _ _ _ _ (hqne q hq)).symm)
            rfl
          rw [hcongr]
          exact ih (fsSetWorking fs p (restoredFile f now)) _ _ _ hndr
            (fun q hq bn2 hbn2 => hresr q hq bn2 hbn2)
    · rw [rewindLoop_cons_zero target true now p rest fs files ins dels hd,
        rewindLoop_cons_zero target false now p rest fs files ins dels hd]
      exact ih fs files ins dels hndr hresr

theorem getAssoc_mem {α : Type} :
    ∀ (l : List (String × α)) (k : String) (v : α),
      getAssoc l k = some v → (k, v) ∈ l := by
  intro l
  induction l with
  | nil => intro k v h; cases h
  | cons e rest ih =>
    intro k v h
    obtain ⟨k0, v0⟩ := e
    by_cases hk : k0 = k
    · simp only [getAssoc, if_pos hk] at h
      cases h
      rw [hk]
      exact List.mem_cons_self _ _
    · simp only [getAssoc, if_neg hk] at h
      exact List.mem_cons_of_mem _ (ih k v h)

theorem findIdx?_spec {α : Type} (p : α → Bool) :
    ∀ (l : List α) (j i : Nat), List.findIdx? p l j = some i →
      j ≤ i ∧ ∀ x, l[i - j]? = some x → p x = true := by
  intro l
  induction l with
  | nil => intro j i h; cases h
  | cons a rest ih =>
    intro j i h
    by_cases ha : p a = true
    · simp only [List.findIdx?, ha, if_true, Option.some.injEq] at h
      refine ⟨by omega, ?_⟩
      intro x hx
      rw [← h, Nat.sub_self] at hx
      simp only [List.getElem?_cons_zero, Option.some.injEq] at hx
      rw [← hx]
      exact ha
    · simp only [List.findIdx?, ha] at h
      obtain ⟨hle, hx⟩ := ih (j + 1) i h
      refine ⟨by omega, ?_⟩
      intro x hmem
      have hidx : i - j = (i - (j + 1)) + 1 := by omega
      rw [hidx] at hmem
      simp only [List.getElem?_cons_succ] at hmem
      exact hx x hmem

/-- The element found by `findIdx?` satisfies the predicate. -/
theorem findIdx?_found {α : Type} (p : α → Bool) (l : List α) (i : Nat)
    (x : α) (hfi : l.findIdx? p = some i) (hx : l[i]? = some x) :
    p x = true := by
  obtain ⟨-, hspec⟩ := findIdx?_spec p l 0 i hfi
  exact hspec x (by simpa using hx)

/-- The backup-store invariant of the data model, restricted to the
snapshot a rewind targets: every `backupFileName` recorded by the
snapshot for `m` resolves to a blob in the store. -/
def backupsResolve (h : FileHistory) (fs : FS) (m : String) : Bool :=
  h.snapshots.all (fun target =>
    !(target.messageId == m) ||
      target.trackedFileBackups.all (fun e =>
        e.2.backupFileName.all (fun bn => (getAssoc fs.backups bn).isSome)))

/-- C5: for every message id, the cumulative preview is literally a dry
`rewindToMessage`, reports exactly the `success`, `error`,
`filesChanged`, `insertions` and `deletions` a wet `rewindToMessage`
would report on the same workspace (given the store invariant that every
backup named by the target snapshot exists), and leaves every working
file unchanged. -/
theorem c5_preview_cumulative_equals_rewind (h : FileHistory) (fs : FS)
    (m : String) (t : Nat) (hinv : backupsResolve h fs m = true) :
    (previewRewind h fs m true t).1 = (rewindToMessage h fs m false t).1 ∧
      (previewRewind h fs m true t).2 = fs := by
  have hpre : previewRewind h fs m true t = rewindToMessage h fs m true t :=
    rfl
  rw [hpre]
  cases hfi : h.snapshots.findIdx? (fun s => decide (s.messageId = m)) with
  | none => constructor <;> simp [rewindToMessage, hfi]
  | some i =>
    cases hti : h.snapshots[i]? with
    | none => constructor <;> simp [rewindToMessage, hfi, hti]
    | some target =>
      have hdry : rewindToMessage h fs m true t =
          rewindLoop target true t
            (affectedOf target (h.snapshots.drop (i + 1))) fs [] 0 0 := by
        simp [rewindToMessage, hfi, hti]
      have hwet : rewindToMessage h fs m false t =
          rewindLoop target false t
            (affectedOf target (h.snapshots.drop (i + 1))) fs [] 0 0 := by
        simp [rewindToMessage, hfi, hti]
      have hmem : target ∈ h.snapshots := by
        cases hlt : h.snapshots[i]?.isSome with
        | false => rw [hti] at hlt; cases hlt
        | true =>
          have := List.getElem?_mem hti
          exact this
      have hmid : target.messageId = m := by
        have := findIdx?_found _ _ _ _ hfi hti
        simpa using this
      have hresolve : ∀ p ∈ affectedOf target (h.snapshots.drop (i + 1)),
          ∀ bn, targetBackupName target p = some bn →
            (getAssoc fs.backups bn).isSome := by
        intro p hp bn hbn
        obtain ⟨meta, hmeta, hname⟩ :
            ∃ meta, getAssoc target.trackedFileBackups p = some meta ∧
              meta.backupFileName = some bn := by
          unfold targetBackupName at hbn
          cases hg : getAssoc target.trackedFileBackups p with
          | none => rw [hg] at hbn; cases hbn
          | some meta =>
            rw [hg] at hbn
            exact ⟨meta, rfl, by simpa using hbn⟩
        have hall := List.all_eq_true.mp hinv target hmem
        rw [hmid] at hall
        simp only [beq_self_eq_true, Bool.not_true, Bool.false_or] at hall
        have hentry := List.all_eq_true.mp hall (p, meta)
          (getAssoc_mem _ _ _ hmeta)
        rw [hname] at hentry
        simpa using hentry
      rw [hdry, hwet]
      constructor
      · exact rewindLoop_dry_eq_wet target t _ fs [] 0 0
          (nodup_affectedOf target _) hresolve
      · exact rewindLoop_dry_fs target t _ fs [] 0 0

/-- C5 witness: the empty-file scenario E1 satisfies the store invariant
and the cumulative preview coincides with the wet rewind there. -/
theorem c5_witness :
    backupsResolve e1Snap.2 e1Deleted "m1" = true ∧
      ((previewRewind e1Snap.2 e1Deleted "m1" true 12).1 =
          (rewindToMessage e1Snap.2 e1Deleted "m1" false 12).1 ∧
        (previewRewind e1Snap.2 e1Deleted "m1" true 12).2 = e1Deleted) :=
  ⟨by decide,
    c5_preview_cumulative_equals_rewind e1Snap.2 e1Deleted "m1" 12
      (by decide)⟩

theorem lcsF_nil_left (fuel : Nat) (b : List String) : lcsF fuel [] b = [] := by
  cases fuel <;> rfl

theorem calculateDiff_none (fs : FS) (p : String) :
    calculateDiff fs p none =
      (match getAssoc fs.working p with
       | none => (0, 0)
       | some f => (f.content.length, 0)) := by
  unfold calculateDiff
  cases hg : getAssoc fs.working p with
  | none => simp
  | some f =>
    simp only [Option.bind_eq_bind]
    have : lcs [] f.content = [] := lcsF_nil_left _ _
    simp [diffCounts, this]

/-- The working file at `p` (if any) has no lines. -/
def workingEmptyAt (fs : FS) (p : String) : Prop :=
  ∀ f, getAssoc fs.working p = some f → f.content = []

theorem workingEmptyAt_of_diff_zero (fs : FS) (p : String)
    (h : calculateDiff fs p none = (0, 0)) : workingEmptyAt fs p := by
  intro f hf
  rw [calculateDiff_none, hf] at h
  simp only [Prod.mk.injEq] at h
  exact List.length_eq_zero.mp h.1

theorem workingEmptyAt_erase (fs : FS) (p : String) :
    workingEmptyAt (fsEraseWorking fs p) p := by
  intro f hf
  simp only [fsEraseWorking] at hf
  rw [getAssoc_eraseAssoc_self] at hf
  cases hf

/-- A wet pass preserves "the working file at `p` is empty or absent"
when the target state of `p` is "not present". -/
theorem rewindLoop_wet_preserves_empty (target : Snapshot) (now : Nat) :
    ∀ (paths : List String) (fs : FS) (files : List String) (ins dels : Nat)
      (p : String) (res : RewindResult) (fs2 : FS),
      targetBackupName target p = none →
      workingEmptyAt fs p →
      rewindLoop target false now paths fs files ins dels = (res, fs2) →
      workingEmptyAt fs2 p := by
  intro paths
  induction paths with
  | nil =>
    intro fs files ins dels p res fs2 hname hemp hrun
    simp only [rewindLoop, Prod.mk.injEq] at hrun
    rw [← hrun.2]
    exact hemp
  | cons q rest ih =>
    intro fs files ins dels p res fs2 hname hemp hrun
    by_cases hd : (calculateDiff fs q (targetBackupName target q)).1 > 0 ∨
        (calculateDiff fs q (targetBackupName target q)).2 > 0
    · by_cases hqp : q = p
      · have hnq : targetBackupName target q = none := by rw [hqp]; exact hname
        have hok : restoreFile fs q (targetBackupName target q) now =
            .ok (fsEraseWorking fs q) := by
          rw [hnq]; exact restoreFile_none_ok fs q now
        rw [rewindLoop_cons_wet_ok target now q rest fs _ files ins dels
          hd hok] at hrun
        exact ih _ _ _ _ p res fs2 hname (hqp ▸ workingEmptyAt_erase fs q) hrun
      · cases hnq : targetBackupName target q with
        | none =>
          have hok : restoreFile fs q (targetBackupName target q) now =
              .ok (fsEraseWorking fs q) := by
            rw [hnq]; exact restoreFile_none_ok fs q now
          rw [rewindLoop_cons_wet_ok target now q rest fs _ files ins dels
            hd hok] at hrun
          refine ih _ _ _ _ p res fs2 hname ?_ hrun
          intro f hf
          simp only [fsEraseWorking] at hf
          rw [getAssoc_eraseAssoc_ne _ _ _ (fun hpq => hqp hpq.symm)] at hf
          exact hemp f hf
        | some bn =>
          cases hbn : getAssoc fs.backups bn with
          | none =>
            have herr : restoreFile fs q (targetBackupName target q) now =
                .error ("Backup file not found: " ++ bn) := by
              rw [hnq]; simp [restoreFile, hbn]
            rw [rewindLoop_cons_wet_err target now q rest fs files ins dels
              _ hd herr] at hrun
            simp only [Prod.mk.injEq] at hrun
            rw [← hrun.2]
            exact hemp
          | some f =>
            have hok : restoreFile fs q (targetBackupName target q) now =
                .ok (fsSetWorking fs q (restoredFile f now)) := by
              rw [hnq]; exact restoreFile_some_ok fs q bn now f hbn
            rw [rewindLoop_cons_wet_ok target now q rest fs _ files ins dels
              hd hok] at hrun
            refine ih _ _ _ _ p res fs2 hname ?_ hrun
            intro g hg
            simp only [fsSetWorking] at hg
            rw [getAssoc_setAssoc_ne _ _ _ _
              (fun hpq => hqp hpq.symm)] at hg
            exact hemp g hg
    · rw [rewindLoop_cons_zero target false now q rest fs files ins dels
        hd] at hrun
      exact ih _ _ _ _ p res fs2 hname hemp hrun

/-- After a successful wet pass, an affected path whose target state is
"not present" survives only as an empty file (a file with content was
deleted; earlier snapshots play no role). -/
theorem rewindLoop_unrecorded_deleted (target : Snapshot) (now : Nat) :
    ∀ (paths : List String) (fs : FS) (files : List String) (ins dels : Nat)
      (p : String) (res : RewindResult) (fs2 : FS),
      p ∈ paths →
      targetBackupName target p = none →
      rewindLoop target false now paths fs files ins dels = (res, fs2) →
      res.success = true →
      workingEmptyAt fs2 p := by
  intro paths
  induction paths with
  | nil => intro fs files ins dels p res fs2 hp; cases hp
  | cons q rest ih =>
    intro fs files ins dels p res fs2 hp hname hrun hsucc
    by_cases hqp : q = p
    · by_cases hd : (calculateDiff fs q (targetBackupName target q)).1 > 0 ∨
          (calculateDiff fs q (targetBackupName target q)).2 > 0
      · have hnq : targetBackupName target q = none := by
          rw [hqp]; exact hname
        have hok : restoreFile fs q (targetBackupName target q) now =
            .ok (fsEraseWorking fs q) := by
          rw [hnq]; exact restoreFile_none_ok fs q now
        rw [rewindLoop_cons_wet_ok target now q rest fs _ files ins dels
          hd hok] at hrun
        exact rewindLoop_wet_preserves_empty target now rest _ _ _ _ p res
          fs2 hname (hqp ▸ workingEmptyAt_erase fs q) hrun
      · have hnq : targetBackupName target q = none := by
          rw [hqp]; exact hname
        have hzero : calculateDiff fs q (targetBackupName target q) = (0, 0) := by
          rcases hv : calculateDiff fs q (targetBackupName target q) with ⟨a, b⟩
          rw [hv] at hd
          simp only [not_or, gt_iff_lt, Nat.not_lt, Nat.le_zero] at hd
          rw [hd.1, hd.2]
        have hemp : workingEmptyAt fs p := by
          rw [← hqp]
          apply workingEmptyAt_of_diff_zero
          rw [← hnq]
          exact hzero
        rw [rewindLoop_cons_zero target false now q rest fs files ins dels
          hd] at hrun
        exact rewindLoop_wet_preserves_empty target now rest _ _ _ _ p res
          fs2 hname hemp hrun
    · have hpr : p ∈ rest := by
        cases List.mem_cons.mp hp with
        | inl h => exact absurd h.symm hqp
        | inr h => exact h
      by_cases hd : (calculateDiff fs q (targetBackupName target q)).1 > 0 ∨
          (calculateDiff fs q (targetBackupName target q)).2 > 0
      · cases hnq : targetBackupName target q with
        | none =>
          have hok : restoreFile fs q (targetBackupName target q) now =
              .ok (fsEraseWorking fs q) := by
            rw [hnq]; exact restoreFile_none_ok fs q now
          rw [rewindLoop_cons_wet_ok target now q rest fs _ files ins dels
            hd hok] at hrun
          exact ih _ _ _ _ p res fs2 hpr hname hrun hsucc
        | some bn =>
          cases hbn : getAssoc fs.backups bn with
          | none =>
            have herr : restoreFile fs q (targetBackupName target q) now =
                .error ("Backup file not found: " ++ bn) := by
              rw [hnq]; simp [restoreFile, hbn]
            rw [rewindLoop_cons_wet_err target now q rest fs files ins dels
              _ hd herr] at hrun
            simp only [Prod.mk.injEq] at hrun
            rw [← hrun.1] at hsucc
            cases hsucc
          | some f =>
            have hok : restoreFile fs q (targetBackupName target q) now =
                .ok (fsSetWorking fs q (restoredFile f now)) := by
              rw [hnq]; exact restoreFile_some_ok fs q bn now f hbn
            rw [rewindLoop_cons_wet_ok target now q rest fs _ files ins dels
              hd hok] at hrun
            exact ih _ _ _ _ p res fs2 hpr hname hrun hsucc
      · rw [rewindLoop_cons_zero target false now q rest fs files ins dels
          hd] at hrun
        exact ih _ _ _ _ p res fs2 hpr hname hrun hsucc

/-- C2 amended: for a successful `rewindToMessage`, an affected path
missing from the target snapshot's map is restored toward "not present":
after the rewind any surviving working file at that path is empty, no
matter what earlier snapshots recorded about the path. -/
theorem c2_amended (h : FileHistory) (fs : FS) (m : String) (t : Nat)
    (i : Nat) (target : Snapshot)
    (hidx : h.snapshots.findIdx? (fun s => decide (s.messageId = m)) =
      some i)
    (htar : h.snapshots[i]? = some target)
    (p : String)
    (haff : p ∈ affectedOf target (h.snapshots.drop (i + 1)))
    (hnot : getAssoc target.trackedFileBackups p = none)
    (res : RewindResult) (fs2 : FS)
    (hrun : rewindToMessage h fs m false t = (res, fs2))
    (hsucc : res.success = true) :
    ∀ f, getAssoc fs2.working p = some f → f.content = [] := by
  have hname : targetBackupName target p = none := by
    unfold targetBackupName
    rw [hnot]
    rfl
  have hrun2 : rewindLoop target false t
      (affectedOf target (h.snapshots.drop (i + 1))) fs [] 0 0 =
        (res, fs2) := by
    rw [← hrun]
    simp [rewindToMessage, hidx, htar]
  exact rewindLoop_unrecorded_deleted target t _ fs [] 0 0 p res fs2 haff
    hname hrun2 hsucc

/-- The `m2` snapshot of scenario E2, as a literal. -/
def e2TargetM2 : Snapshot :=
  { messageId := "m2", timestamp := 4,
    trackedFileBackups :=
      [("q.txt", { backupFileName := none, version := 1, backupTime := 3 })] }

/-- C2 amended witness: in scenario E2, the successful rewind to `m2`
leaves no surviving content at `p.txt`. -/
theorem c2_witness :
    (∀ f, getAssoc e2Rewind.2.working "p.txt" = some f →
      f.content = []) ∧ e2Rewind.1.success = true :=
  ⟨c2_amended e2SnapM3.2 e2FsModified "m2" 20 1 e2TargetM2
      (by decide) (by decide) "p.txt" (by decide) (by decide)
      e2Rewind.1 e2Rewind.2 rfl (by decide),
    by decide⟩

theorem findIdx?_shift {α : Type} (p : α → Bool) :
    ∀ (l : List α) (j : Nat),
      List.findIdx? p l (j + 1) = (List.findIdx? p l j).map (· + 1) := by
  intro l
  induction l with
  | nil => intro j; rfl
  | cons a rest ih =>
    intro j
    by_cases ha : p a = true
    · simp [List.findIdx?, ha]
    · simp only [List.findIdx?, ha]
      exact ih (j + 1)

theorem find?_via_findIdx? {α : Type} (p : α → Bool) :
    ∀ (l : List α), l.find? p = (l.findIdx? p).bind (fun i => l[i]?) := by
  intro l
  induction l with
  | nil => rfl
  | cons a rest ih =>
    by_cases ha : p a = true
    · simp [List.find?, List.findIdx?, ha]
    · simp only [List.find?, ha, List.findIdx?]
      rw [show (0 + 1 : Nat) = 0 + 1 from rfl, findIdx?_shift p rest 0]
      rw [ih]
      cases List.findIdx? p rest 0 with
      | none => rfl
      | some i => simp

/-- In a dry pass, a path lands in `filesChanged` only with a nonzero
diff against the (unchanged) filesystem. -/
theorem rewindLoop_dry_filesChanged (target : Snapshot) (now : Nat) :
    ∀ (paths : List String) (fs : FS) (files : List String) (ins dels : Nat)
      (p : String),
      p ∈ (rewindLoop target true now paths fs files ins dels).1.filesChanged →
      p ∈ files ∨ (p ∈ paths ∧
        calculateDiff fs p (targetBackupName target p) ≠ (0, 0)) := by
  intro paths
  induction paths with
  | nil =>
    intro fs files ins dels p hp
    exact Or.inl hp
  | cons q rest ih =>
    intro fs files ins dels p hp
    by_cases hd : (calculateDiff fs q (targetBackupName target q)).1 > 0 ∨
        (calculateDiff fs q (targetBackupName target q)).2 > 0
    · rw [rewindLoop_cons_dry target now q rest fs files ins dels hd] at hp
      rcases ih fs (files ++ [q]) _ _ p hp with hin | ⟨hr, hne⟩
      · rcases List.mem_append.mp hin with hin2 | hin2
        · exact Or.inl hin2
        · refine Or.inr ⟨by simp [List.mem_singleton.mp hin2], ?_⟩
          rw [List.mem_singleton.mp hin2]
          intro hzero
          rw [hzero] at hd
          simp at hd
      · exact Or.inr ⟨by simp [hr], hne⟩
    · rw [rewindLoop_cons_zero target true now q rest fs files ins dels
        hd] at hp
      rcases ih fs files _ _ p hp with hin | ⟨hr, hne⟩
      · exact Or.inl hin
      · exact Or.inr ⟨by simp [hr], hne⟩

/-- Closed form of the non-cumulative preview loop. -/
theorem previewLoop_spec (fs : FS) :
    ∀ (entries : List (String × FileBackupMeta)) (files : List String)
      (ins dels : Nat),
      previewLoop fs entries files ins dels =
        { success := true, error := none,
          filesChanged := files ++ entries.map (·.1),
          insertions := ins + (entries.map
            (fun e => (calculateDiff fs e.1 e.2.backupFileName).1)).sum,
          deletions := dels + (entries.map
            (fun e => (calculateDiff fs e.1 e.2.backupFileName).2)).sum } := by
  intro entries
  induction entries with
  | nil => intro files ins dels; simp [previewLoop]
  | cons e rest ih =>
    intro files ins dels
    obtain ⟨p, meta⟩ := e
    show previewLoop fs rest (files ++ [p]) _ _ = _
    rw [ih (files ++ [p]) _ _]
    simp [RewindResult.mk.injEq, List.append_assoc, Nat.add_assoc]

/-- C10: for an existing snapshot, the non-cumulative preview succeeds,
lists *every* path of the snapshot's map in `filesChanged` (zero-diff
paths included), sums the counts over the snapshot's own backup entries,
and touches nothing — unlike the cumulative mode, whose `filesChanged`
holds only paths whose diff is nonzero. -/
theorem c10_preview_noncumulative_lists_all (h : FileHistory) (fs : FS)
    (m : String) (t : Nat) (s : Snapshot)
    (hfind : h.snapshots.find? (fun x => decide (x.messageId = m)) =
      some s) :
    (previewRewind h fs m false t).1 =
      { success := true, error := none,
        filesChanged := s.trackedFileBackups.map (·.1),
        insertions := (s.trackedFileBackups.map
          (fun e => (calculateDiff fs e.1 e.2.backupFileName).1)).sum,
        deletions := (s.trackedFileBackups.map
          (fun e => (calculateDiff fs e.1 e.2.backupFileName).2)).sum } ∧
    (previewRewind h fs m false t).2 = fs ∧
    (∀ p ∈ (previewRewind h fs m true t).1.filesChanged,
      calculateDiff fs p (targetBackupName s p) ≠ (0, 0)) := by
  refine ⟨?_, ?_, ?_⟩
  · have hstep : (previewRewind h fs m false t).1 =
        previewLoop fs s.trackedFileBackups [] 0 0 := by
      simp [previewRewind, hfind]
    rw [hstep, previewLoop_spec fs s.trackedFileBackups [] 0 0]
    simp
  · simp [previewRewind, hfind]
  · intro p hp
    have hvia := find?_via_findIdx?
      (fun x => decide (x.messageId = m)) h.snapshots
    rw [hfind] at hvia
    cases hfi : h.snapshots.findIdx? (fun x => decide (x.messageId = m)) with
    | none => rw [hfi] at hvia; cases hvia
    | some i =>
      rw [hfi] at hvia
      simp only [Option.some_bind] at hvia
      have hti : h.snapshots[i]? = some s := hvia.symm
      have hdry : previewRewind h fs m true t =
          rewindLoop s true t
            (affectedOf s (h.snapshots.drop (i + 1))) fs [] 0 0 := by
        show rewindToMessage h fs m true t = _
        simp [rewindToMessage, hfi, hti]
      rw [hdry] at hp
      rcases rewindLoop_dry_filesChanged s t _ fs [] 0 0 p hp with
        hin | ⟨-, hne⟩
      · cases hin
      · exact hne

/-- The `m3` snapshot of scenario E2, as a literal. -/
def e2TargetM3 : Snapshot :=
  { messageId := "m3", timestamp := 6,
    trackedFileBackups :=
      [("p.txt",
        { backupFileName := some "p.txt@v1", version := 1,
          backupTime := 5 })] }

/-- C10 witness: the non-cumulative preview of `m3` in scenario E2. -/
theorem c10_witness :
    (previewRewind e2SnapM3.2 e2FsModified "m3" false 21).1 =
      { success := true, error := none,
        filesChanged := e2TargetM3.trackedFileBackups.map (·.1),
        insertions := (e2TargetM3.trackedFileBackups.map
          (fun e =>
            (calculateDiff e2FsModified e.1 e.2.backupFileName).1)).sum,
        deletions := (e2TargetM3.trackedFileBackups.map
          (fun e =>
            (calculateDiff e2FsModified e.1 e.2.backupFileName).2)).sum } ∧
      (previewRewind e2SnapM3.2 e2FsModified "m3" false 21).2 =
        e2FsModified :=
  ⟨(c10_preview_noncumulative_lists_all e2SnapM3.2 e2FsModified "m3" 21
      e2TargetM3 (by decide)).1,
    (c10_preview_noncumulative_lists_all e2SnapM3.2 e2FsModified "m3" 21
      e2TargetM3 (by decide)).2.1⟩

/-! ## The snapshot-then-rewind round trip -/

theorem lcsF_nil_right : ∀ (fuel : Nat) (a : List String),
    lcsF fuel a [] = [] := by
  intro fuel a
  cases fuel <;> cases a <;> rfl

theorem diffCounts_nil_right (a : List String) :
    diffCounts a [] = (0, a.length) := by
  simp [diffCounts, lcs, lcsF_nil_right]

theorem diffCounts_pos_of_ne (a b : List String) (h : a ≠ b) :
    (diffCounts a b).1 > 0 ∨ (diffCounts a b).2 > 0 := by
  have hne : diffCounts a b ≠ (0, 0) :=
    fun hz => h ((diffCounts_eq_zero_iff a b).mp hz)
  rcases hv : diffCounts a b with ⟨x, y⟩
  rw [hv] at hne
  by_cases hx : x = 0
  · by_cases hy : y = 0
    · exact absurd (by rw [hx, hy]) hne
    · exact Or.inr (by omega)
  · exact Or.inl (by omega)

theorem findIdx?_append_singleton {α : Type} (pred : α → Bool) :
    ∀ (l : List α) (x : α), (∀ y ∈ l, pred y = false) → pred x = true →
      ∀ j, List.findIdx? pred (l ++ [x]) j = some (j + l.length) := by
  intro l
  induction l with
  | nil =>
    intro x hl hx j
    simp [List.findIdx?, hx]
  | cons a rest ih =>
    intro x hl hx j
    have ha : pred a = false := hl a (by simp)
    have hrec := ih x (fun y hy => hl y (by simp [hy])) hx (j + 1)
    simp only [List.cons_append, List.findIdx?, ha, Bool.false_eq_true,
      if_false]
    rw [show rest.append [x] = rest ++ [x] from rfl, hrec]
    simp only [List.length_cons, Option.some.injEq]
    omega

theorem getElem?_append_length {α : Type} :
    ∀ (l : List α) (x : α), (l ++ [x])[l.length]? = some x := by
  intro l
  induction l with
  | nil => intro x; rfl
  | cons a rest ih =>
    intro x
    simpa using ih x

theorem drop_append_length {α : Type} :
    ∀ (l : List α) (x : α), (l ++ [x]).drop (l.length + 1) = [] := by
  intro l
  induction l with
  | nil => intro x; rfl
  | cons a rest ih =>
    intro x
    simpa using ih x

theorem createBackup_name_some (fs : FS) (p : String) (v now : Nat)
    (f : File) (h : getAssoc fs.working p = some f) :
    (createBackup fs p v now).1.backupFileName =
      some (generateBackupFileName p v) := by
  simp [createBackup, h]

theorem createBackup_fs_some (fs : FS) (p : String) (v now : Nat)
    (f : File) (h : getAssoc fs.working p = some f) :
    (createBackup fs p v now).2 =
      fsSetBackup fs (generateBackupFileName p v) f := by
  simp [createBackup, h]

theorem calculateDiff_backup_some (fs : FS) (p bn : String) (bf : File)
    (hb : getAssoc fs.backups bn = some bf) :
    calculateDiff fs p (some bn) =
      diffCounts bf.content
        (((getAssoc fs.working p).map (·.content)).getD []) := by
  unfold calculateDiff
  simp only [Option.bind_eq_bind, Option.some_bind, hb]
  cases getAssoc fs.working p <;> simp

theorem rewindLoop_nil (target : Snapshot) (dry : Bool) (now : Nat)
    (fs : FS) (files : List String) (ins dels : Nat) :
    rewindLoop target dry now [] fs files ins dels =
      ({ success := true, error := none, filesChanged := files,
         insertions := ins, deletions := dels }, fs) := rfl

/-- The operation sequence of the round-trip law: track `p`, commit the
pending backup as the snapshot for `m`, apply a modification (`some g` =
overwrite, `none` = delete), then rewind to `m`. -/
def roundTrip (h0 : FileHistory) (fs0 : FS) (p m : String)
    (g : Option File) (t1 t2 t3 : Nat) : RewindResult × FS :=
  let tr := trackFile h0 fs0 p t1
  let cs := createSnapshot tr.1 m t2
  let fs2 := match g with
    | some gf => fsSetWorking tr.2 p gf
    | none => fsEraseWorking tr.2 p
  rewindToMessage cs.2 fs2 m false t3

/-- C1 amended: after `trackFile(p)` copied `p`'s content (the file
existed and the change check passed) and `createSnapshot(m)` committed
it as the turn's snapshot, rewinding to `m` reports success and leaves
`p` with exactly the tracked content — both when `p` was overwritten and
when it was deleted — provided a deleted `p`'s tracked content was
non-empty.  (A deleted empty file diffs as `(0, 0)` against its empty
backup and is left absent; see the counterexample.) -/
theorem c1_amended (h0 : FileHistory) (fs0 : FS) (p m : String)
    (f : File) (g : Option File) (t1 t2 t3 : Nat)
    (hpend : h0.pendingBackups = [])
    (hfresh : ∀ s ∈ h0.snapshots, s.messageId ≠ m)
    (hcur : getAssoc fs0.working p = some f)
    (hchanged : hasFileChanged fs0 p
      ((latestBackupMeta h0 p).bind (·.backupFileName)) = true)
    (hnonempty : g = none → f.content ≠ []) :
    (roundTrip h0 fs0 p m g t1 t2 t3).1.success = true ∧
      (getAssoc (roundTrip h0 fs0 p m g t1 t2 t3).2.working p).map
        (·.content) = some f.content := by
  have hcb1 : (createBackup fs0 p (nextVersion h0 p) t1).1.backupFileName =
      some (generateBackupFileName p (nextVersion h0 p)) :=
    createBackup_name_some fs0 p _ t1 f hcur
  have hcb2 : (createBackup fs0 p (nextVersion h0 p) t1).2 =
      fsSetBackup fs0 (generateBackupFileName p (nextVersion h0 p)) f :=
    createBackup_fs_some fs0 p _ t1 f hcur
  have htr1p : (trackFile h0 fs0 p t1).1.pendingBackups =
      [(p, (createBackup fs0 p (nextVersion h0 p) t1).1)] := by
    simp [trackFile, hchanged, hpend, setAssoc]
  have htr1s : (trackFile h0 fs0 p t1).1.snapshots = h0.snapshots := by
    simp [trackFile, hchanged]
  have htr2 : (trackFile h0 fs0 p t1).2 =
      fsSetBackup fs0 (generateBackupFileName p (nextVersion h0 p)) f := by
    rw [← hcb2]
    simp [trackFile, hchanged]
  have hne : ¬ ((trackFile h0 fs0 p t1).1.pendingBackups = []) := by
    rw [htr1p]; simp
  have hcsnap : (createSnapshot (trackFile h0 fs0 p t1).1 m t2).2.snapshots =
      h0.snapshots ++
        [⟨m, t2, [(p, (createBackup fs0 p (nextVersion h0 p) t1).1)]⟩] := by
    simp [createSnapshot, hne, htr1s, htr1p]
  have hfi : ((createSnapshot (trackFile h0 fs0 p t1).1 m t2).2.snapshots).findIdx?
      (fun s => decide (s.messageId = m)) = some h0.snapshots.length := by
    rw [hcsnap]
    have := findIdx?_append_singleton (fun s => decide (s.messageId = m))
      h0.snapshots ⟨m, t2, [(p, (createBackup fs0 p (nextVersion h0 p) t1).1)]⟩
      (fun y hy => by simp [hfresh y hy]) (by simp) 0
    simpa using this
  have hti : ((createSnapshot (trackFile h0 fs0 p t1).1 m t2).2.snapshots)[h0.snapshots.length]? =
      some ⟨m, t2, [(p, (createBackup fs0 p (nextVersion h0 p) t1).1)]⟩ := by
    rw [hcsnap]
    exact getElem?_append_length _ _
  have hdrop : ((createSnapshot (trackFile h0 fs0 p t1).1 m t2).2.snapshots).drop
      (h0.snapshots.length + 1) = [] := by
    rw [hcsnap]
    exact drop_append_length _ _
  have haff : affectedOf
      ⟨m, t2, [(p, (createBackup fs0 p (nextVersion h0 p) t1).1)]⟩ [] = [p] := by
    simp [affectedOf, insertUniq]
  have htn : targetBackupName
      ⟨m, t2, [(p, (createBackup fs0 p (nextVersion h0 p) t1).1)]⟩ p =
        some (generateBackupFileName p (nextVersion h0 p)) := by
    simp [targetBackupName, getAssoc, hcb1]
  cases g with
  | some gf =>
    have hrw : roundTrip h0 fs0 p m (some gf) t1 t2 t3 =
        rewindLoop ⟨m, t2, [(p, (createBackup fs0 p (nextVersion h0 p) t1).1)]⟩
          false t3 [p]
          (fsSetWorking (trackFile h0 fs0 p t1).2 p gf) [] 0 0 := by
      show rewindToMessage _ _ m false t3 = _
      simp only [rewindToMessage, hfi, hti, hdrop, haff]
    have hblob : getAssoc
        (fsSetWorking (trackFile h0 fs0 p t1).2 p gf).backups
        (generateBackupFileName p (nextVersion h0 p)) = some f := by
      simp [fsSetWorking, htr2, fsSetBackup, getAssoc_setAssoc_self]
    have hwork : getAssoc
        (fsSetWorking (trackFile h0 fs0 p t1).2 p gf).working p = some gf := by
      simp [fsSetWorking, getAssoc_setAssoc_self]
    have hdiffeq : calculateDiff
        (fsSetWorking (trackFile h0 fs0 p t1).2 p gf) p
        (targetBackupName
          ⟨m, t2, [(p, (createBackup fs0 p (nextVersion h0 p) t1).1)]⟩ p) =
        diffCounts f.content gf.content := by
      rw [htn, calculateDiff_backup_some _ _ _ _ hblob, hwork]
      rfl
    by_cases heq : gf.content = f.content
    · have hzero : calculateDiff
          (fsSetWorking (trackFile h0 fs0 p t1).2 p gf) p
          (targetBackupName
            ⟨m, t2, [(p, (createBackup fs0 p (nextVersion h0 p) t1).1)]⟩ p) =
          (0, 0) := by
        rw [hdiffeq, heq]
        exact (diffCounts_eq_zero_iff _ _).mpr rfl
      have hd : ¬ ((calculateDiff
          (fsSetWorking (trackFile h0 fs0 p t1).2 p gf) p
          (targetBackupName
            ⟨m, t2, [(p, (createBackup fs0 p (nextVersion h0 p) t1).1)]⟩ p)).1 > 0 ∨
          (calculateDiff
          (fsSetWorking (trackFile h0 fs0 p t1).2 p gf) p
          (targetBackupName
            ⟨m, t2, [(p, (createBackup fs0 p (nextVersion h0 p) t1).1)]⟩ p)).2 > 0) := by
        rw [hzero]; simp
      rw [hrw, rewindLoop_cons_zero _ _ _ _ _ _ _ _ _ hd, rewindLoop_nil]
      exact ⟨rfl, by simp [hwork, heq]⟩
    · have hd : (calculateDiff
          (fsSetWorking (trackFile h0 fs0 p t1).2 p gf) p
          (targetBackupName
            ⟨m, t2, [(p, (createBackup fs0 p (nextVersion h0 p) t1).1)]⟩ p)).1 > 0 ∨
          (calculateDiff
          (fsSetWorking (trackFile h0 fs0 p t1).2 p gf) p
          (targetBackupName
            ⟨m, t2, [(p, (createBackup fs0 p (nextVersion h0 p) t1).1)]⟩ p)).2 > 0 := by
        rw [hdiffeq]
        exact diffCounts_pos_of_ne _ _ (fun hh => heq hh.symm)
      have hok : restoreFile
          (fsSetWorking (trackFile h0 fs0 p t1).2 p gf) p
          (targetBackupName
            ⟨m, t2, [(p, (createBackup fs0 p (nextVersion h0 p) t1).1)]⟩ p) t3 =
          .ok (fsSetWorking (fsSetWorking (trackFile h0 fs0 p t1).2 p gf) p
            (restoredFile f t3)) := by
        rw [htn]
        exact restoreFile_some_ok _ _ _ _ _ hblob
      rw [hrw, rewindLoop_cons_wet_ok _ _ _ _ _ _ _ _ _ hd hok,
        rewindLoop_nil]
      refine ⟨rfl, ?_⟩
      simp [fsSetWorking, getAssoc_setAssoc_self, restoredFile]
  | none =>
    have hrw : roundTrip h0 fs0 p m none t1 t2 t3 =
        rewindLoop ⟨m, t2, [(p, (createBackup fs0 p (nextVersion h0 p) t1).1)]⟩
          false t3 [p]
          (fsEraseWorking (trackFile h0 fs0 p t1).2 p) [] 0 0 := by
      show rewindToMessage _ _ m false t3 = _
      simp only [rewindToMessage, hfi, hti, hdrop, haff]
    have hblob : getAssoc
        (fsEraseWorking (trackFile h0 fs0 p t1).2 p).backups
        (generateBackupFileName p (nextVersion h0 p)) = some f := by
      simp [fsEraseWorking, htr2, fsSetBackup, getAssoc_setAssoc_self]
    have hwork : getAssoc
        (fsEraseWorking (trackFile h0 fs0 p t1).2 p).working p = none := by
      simp [fsEraseWorking, getAssoc_eraseAssoc_self]
    have hdiffeq : calculateDiff
        (fsEraseWorking (trackFile h0 fs0 p t1).2 p) p
        (targetBackupName
          ⟨m, t2, [(p, (createBackup fs0 p (nextVersion h0 p) t1).1)]⟩ p) =
        (0, f.content.length) := by
      rw [htn, calculateDiff_backup_some _ _ _ _ hblob, hwork]
      simpa using diffCounts_nil_right f.content
    have hlen : f.content.length > 0 := by
      have := hnonempty rfl
      cases hc : f.content with
      | nil => exact absurd hc this
      | cons a rest => simp [hc]
    have hd : (calculateDiff
        (fsEraseWorking (trackFile h0 fs0 p t1).2 p) p
        (targetBackupName
          ⟨m, t2, [(p, (createBackup fs0 p (nextVersion h0 p) t1).1)]⟩ p)).1 > 0 ∨
        (calculateDiff
        (fsEraseWorking (trackFile h0 fs0 p t1).2 p) p
        (targetBackupName
          ⟨m, t2, [(p, (createBackup fs0 p (nextVersion h0 p) t1).1)]⟩ p)).2 > 0 := by
      rw [hdiffeq]
      exact Or.inr hlen
    have hok : restoreFile
        (fsEraseWorking (trackFile h0 fs0 p t1).2 p) p
        (targetBackupName
          ⟨m, t2, [(p, (createBackup fs0 p (nextVersion h0 p) t1).1)]⟩ p) t3 =
        .ok (fsSetWorking (fsEraseWorking (trackFile h0 fs0 p t1).2 p) p
          (restoredFile f t3)) := by
      rw [htn]
      exact restoreFile_some_ok _ _ _ _ _ hblob
    rw [hrw, rewindLoop_cons_wet_ok _ _ _ _ _ _ _ _ _ hd hok,
      rewindLoop_nil]
    refine ⟨rfl, ?_⟩
    simp [fsSetWorking, getAssoc_setAssoc_self, restoredFile]

/-- C1 amended witness: the round trip at a concrete non-empty file that
is deleted after the snapshot. -/
theorem c1_witness :
    (roundTrip freshHistory fsA "p.txt" "m1" none 1 2 3).1.success = true ∧
      (getAssoc (roundTrip freshHistory fsA "p.txt" "m1" none 1 2 3).2.working
        "p.txt").map (·.content) = some fileA.content :=
  c1_amended freshHistory fsA "p.txt" "m1" fileA none 1 2 3
    (by decide) (by decide) (by decide) (by decide) (by decide)

/-- The backup entry of the `m1` snapshot in scenario E2. -/
def metaM1 : FileBackupMeta :=
  { backupFileName := some "p.txt@v1", version := 1, backupTime := 1 }

/-- The `m1` snapshot of scenario E2, as a literal. -/
def e2TargetM1 : Snapshot :=
  { messageId := "m1", timestamp := 2,
    trackedFileBackups := [("p.txt", metaM1)] }

/-- C3 amended witness: after the `m1` snapshot of scenario E2, tracking
`p.txt` again yields pending entries at version 2. -/
theorem c3_amended_witness :
    (∀ e, getAssoc (trackFile e2SnapM1.2 e2TrackP.2 "p.txt" 9).1.pendingBackups
        "p.txt" = some e → e.version = metaM1.version + 1) ∧
      (∃ e, getAssoc (trackNewFile e2SnapM1.2 "p.txt" 9).pendingBackups
        "p.txt" = some e ∧ e.version = metaM1.version + 1) :=
  c3_amended e2SnapM1.2 e2TrackP.2 "p.txt" 9 e2TargetM1 metaM1
    (by decide) (by decide) (by decide)

/-- C4 amended witness: re-tracking `p.txt` right after the `m1`
snapshot (size and mtime unchanged) is a no-op. -/
theorem c4_amended_witness :
    (trackFile e2SnapM1.2 e2TrackP.2 "p.txt" 9).1.pendingBackups =
        e2SnapM1.2.pendingBackups ∧
      (trackFile e2SnapM1.2 e2TrackP.2 "p.txt" 9).2 = e2TrackP.2 :=
  c4_amended e2SnapM1.2 e2TrackP.2 "p.txt" 9 e2TargetM1 metaM1 "p.txt@v1"
    fileA fileA (by decide) (by decide) (by decide) (by decide) (by decide)
    (by decide) (by decide)

/-- C7 amended witness: rewinding and previewing an unknown id on the
one-snapshot history. -/
theorem c7_amended_witness :
    rewindToMessage e2SnapM1.2 fsA "nope" false 9 =
        (snapshotNotFound "nope", fsA) ∧
      previewRewind e2SnapM1.2 fsA "nope" false 9 =
        (snapshotNotFound "nope", fsA) ∧
      (snapshotNotFound "nope").success = false ∧
      (snapshotNotFound "nope").error =
        some ("Snapshot not found for message: " ++ "nope") ∧
      (snapshotNotFound "nope").filesChanged = [] ∧
      (snapshotNotFound "nope").insertions = 0 ∧
      (snapshotNotFound "nope").deletions = 0 :=
  c7_amended e2SnapM1.2 fsA "nope" false 9 (by decide)

/-- C8 amended witness: the first snapshot creation of scenario E2. -/
theorem c8_amended_witness :
    e2SnapM1.2.snapshots = e2TrackP.1.snapshots ++ [e2TargetM1] ∧
      e2TargetM1.messageId = "m1" ∧ e2TargetM1.timestamp = 2 ∧
      (e2SnapM1.2.snapshots.map (·.messageId)).Nodup ∧
      nondecreasing (e2SnapM1.2.snapshots.map (·.timestamp)) = true :=
  c8_amended e2TrackP.1 "m1" 2 e2TargetM1 e2SnapM1.2 (by decide) (by decide)
    (by decide) (by decide) (by decide)

/-! ## Session journal reader: the active-path filter

`filterMessages` lives in src/session.ts, which is not among the
provided sources; the repository carries its unit tests
(`filterMessages` cases in session.test.ts) and its full listing in
docs/designs/2026-02-04-session-resume-cleanup.md.  The filter below is
modelled from the spec: messages form a tree via `parentUuid`; the
reader selects the path from the most recent message back to the last
null-parented ancestor and discards all off-path nodes.  Only the two
fields the filter reads are modelled. -/

/-- Modelled from the spec: a journal message as the active-path filter
sees it (`uuid` and nullable `parentUuid`). -/
structure NMessage where
  uuid : String
  parentUuid : Option String
deriving DecidableEq, Inhabited

/-- Modelled from the spec: the uuid-to-message map the filter builds
(`messageMap.set(message.uuid, message)` over the list; later entries
overwrite earlier ones, as in a JS `Map`). -/
def msgMap (msgs : List NMessage) : List (String × NMessage) :=
  msgs.foldl (fun acc msg => setAssoc acc msg.uuid msg) []

/-- Modelled from the spec: the walk from the most recent message up the
`parentUuid` chain, stopping at a null parent or a missing parent.  The
fuel only bounds the loop; `msgs.length` suffices whenever parents
precede their children in the journal. -/
def walkActive (map : List (String × NMessage)) :
    Nat → NMessage → List NMessage
  | 0, cur => [cur]
  | fuel + 1, cur =>
    match cur.parentUuid with
    | none => [cur]
    | some pu =>
      match getAssoc map pu with
      | none => [cur]
      | some parent => cur :: walkActive map fuel parent

/-- Modelled from the spec: the active-path filter stage of the journal
reader — keep exactly the messages whose uuid lies on the walk from the
most recent message to the last null-parented ancestor. -/
def filterByPath (msgs : List NMessage) : List NMessage :=
  match msgs.getLast? with
  | none => []
  | some last =>
    let active := (walkActive (msgMap msgs) msgs.length last).map (·.uuid)
    msgs.filter (fun msg => decide (msg.uuid ∈ active))

/-- A journal is well formed when uuids are unique and every non-null
parent reference points at an earlier message, as append-order journals
guarantee. -/
def wfParents : List String → List NMessage → Bool
  | _, [] => true
  | seen, msg :: rest =>
    (match msg.parentUuid with
     | none => true
     | some pu => seen.contains pu) && wfParents (seen ++ [msg.uuid]) rest

def JournalWF (msgs : List NMessage) : Prop :=
  (msgs.map (·.uuid)).Nodup ∧ wfParents [] msgs = true

/-- Chain check along the walk: every message's `parentUuid` is the uuid
of the next message in the list. -/
def parentLinked : List NMessage → Bool
  | [] => true
  | [_] => true
  | x :: y :: rest =>
    decide (x.parentUuid = some y.uuid) && parentLinked (y :: rest)

theorem wfParents_spec :
    ∀ (rest : List NMessage) (seen : List String),
      wfParents seen rest = true →
      ∀ (k : Nat) (hk : k < rest.length) (pu : String),
        (rest.get ⟨k, hk⟩).parentUuid = some pu →
        pu ∈ seen ∨ ∃ j, ∃ (hj : j < rest.length), j < k ∧
          (rest.get ⟨j, hj⟩).uuid = pu := by
  intro rest
  induction rest with
  | nil => intro seen hwf k hk; simp at hk
  | cons msg rest2 ih =>
    intro seen hwf k hk pu hpu
    have hsplit : (match msg.parentUuid with
        | none => true
        | some pu2 => seen.contains pu2) = true ∧
        wfParents (seen ++ [msg.uuid]) rest2 = true := by
      have hw := hwf
      unfold wfParents at hw
      simp only [Bool.and_eq_true] at hw
      exact hw
    cases k with
    | zero =>
      simp only [List.get] at hpu
      rw [hpu] at hsplit
      exact Or.inl (by simpa using hsplit.1)
    | succ k2 =>
      have hk2 : k2 < rest2.length := by simpa using hk
      have hrec := ih (seen ++ [msg.uuid]) hsplit.2 k2 hk2 pu
        (by simpa using hpu)
      rcases hrec with hin | ⟨j, hj, hjk, hju⟩
      · rcases List.mem_append.mp hin with hin2 | hin2
        · exact Or.inl hin2
        · refine Or.inr ⟨0, by simp, by omega, ?_⟩
          simpa using (List.mem_singleton.mp hin2).symm
      · exact Or.inr ⟨j + 1, by simpa using hj, by omega, by simpa using hju⟩

theorem wf_parent_earlier (msgs : List NMessage) (hwf : JournalWF msgs) :
    ∀ (k : Nat) (hk : k < msgs.length) (pu : String),
      (msgs.get ⟨k, hk⟩).parentUuid = some pu →
      ∃ j, ∃ (hj : j < msgs.length), j < k ∧ (msgs.get ⟨j, hj⟩).uuid = pu := by
  intro k hk pu hpu
  rcases wfParents_spec msgs [] hwf.2 k hk pu hpu with hin | hfound
  · cases hin
  · exact hfound

theorem find?_append_or {α : Type} (p : α → Bool) :
    ∀ (l1 l2 : List α),
      (l1 ++ l2).find? p =
        match l1.find? p with
        | some x => some x
        | none => l2.find? p := by
  intro l1 l2
  induction l1 with
  | nil => rfl
  | cons a rest ih =>
    by_cases ha : p a = true
    · simp [List.find?, ha]
    · simp only [List.cons_append, List.find?, ha]
      simpa using ih

theorem getAssoc_msgMap_aux :
    ∀ (msgs : List NMessage) (acc : List (String × NMessage)) (u : String),
      getAssoc (msgs.foldl (fun a msg => setAssoc a msg.uuid msg) acc) u =
        match msgs.reverse.find? (fun msg => decide (msg.uuid = u)) with
        | some msg => some msg
        | none => getAssoc acc u := by
  intro msgs
  induction msgs with
  | nil => intro acc u; rfl
  | cons msg rest ih =>
    intro acc u
    rw [List.foldl_cons, ih (setAssoc acc msg.uuid msg) u]
    rw [show (msg :: rest).reverse = rest.reverse ++ [msg] by simp]
    rw [find?_append_or]
    cases hfr : rest.reverse.find? (fun x => decide (x.uuid = u)) with
    | some x => rfl
    | none =>
      by_cases hu : msg.uuid = u
      · have hone : List.find? (fun x => decide (x.uuid = u)) [msg] =
            some msg := by
          simp [List.find?, hu]
        rw [hone, ← hu, getAssoc_setAssoc_self]
      · have hone : List.find? (fun x => decide (x.uuid = u)) [msg] =
            none := by
          simp [List.find?, hu]
        rw [hone, getAssoc_setAssoc_ne _ _ _ _ (fun h => hu h.symm)]

theorem find?_uuid_of_mem :
    ∀ (l : List NMessage), (l.map (·.uuid)).Nodup →
      ∀ x ∈ l, l.find? (fun msg => decide (msg.uuid = x.uuid)) = some x := by
  intro l
  induction l with
  | nil => intro hnd x hx; cases hx
  | cons a rest ih =>
    intro hnd x hx
    have hnd2 : (rest.map (·.uuid)).Nodup := (List.nodup_cons.mp hnd).2
    have hanotin : a.uuid ∉ rest.map (·.uuid) := (List.nodup_cons.mp hnd).1
    rcases List.mem_cons.mp hx with rfl | hx2
    · simp [List.find?]
    · have hne : ¬ (a.uuid = x.uuid) := by
        intro he
        exact hanotin (he ▸ List.mem_map.mpr ⟨x, hx2, rfl⟩)
      have hfa : decide (a.uuid = x.uuid) = false := by
        simp [hne]
      rw [List.find?_cons, hfa]
      exact ih hnd2 x hx2

theorem getAssoc_msgMap_of_mem (msgs : List NMessage)
    (hnd : (msgs.map (·.uuid)).Nodup) (x : NMessage) (hx : x ∈ msgs) :
    getAssoc (msgMap msgs) x.uuid = some x := by
  rw [msgMap, getAssoc_msgMap_aux msgs [] x.uuid]
  have hndr : (msgs.reverse.map (·.uuid)).Nodup := by
    simpa using List.nodup_reverse.mpr hnd
  rw [find?_uuid_of_mem msgs.reverse hndr x (List.mem_reverse.mpr hx)]

theorem mem_of_getAssoc_msgMap (msgs : List NMessage) (u : String)
    (x : NMessage) (hx : getAssoc (msgMap msgs) u = some x) : x ∈ msgs := by
  rw [msgMap, getAssoc_msgMap_aux msgs [] u] at hx
  cases hfr : msgs.reverse.find? (fun msg => decide (msg.uuid = u)) with
  | some y =>
    rw [hfr] at hx
    cases hx
    exact List.mem_reverse.mp (List.mem_of_find?_eq_some hfr)
  | none =>
    rw [hfr] at hx
    cases hx

theorem getElem?_take_lt {α : Type} :
    ∀ (l : List α) (n i : Nat), i < n → (l.take n)[i]? = l[i]? := by
  intro l
  induction l with
  | nil => intro n i h; simp
  | cons a rest ih =>
    intro n i h
    cases n with
    | zero => omega
    | succ n2 =>
      cases i with
      | zero => simp
      | succ i2 => simpa using ih n2 i2 (by omega)

theorem getElem?_drop_add {α : Type} :
    ∀ (l : List α) (m i : Nat), (l.drop m)[i]? = l[m + i]? := by
  intro l
  induction l with
  | nil => intro m i; simp
  | cons a rest ih =>
    intro m i
    cases m with
    | zero => simp
    | succ m2 => simpa [Nat.succ_add] using ih m2 i

/-- The walk from the message at index `k` of a well-formed journal is a
parent-linked chain through strictly earlier messages, ending at a
null-parented ancestor; its reversal is a sublist of the journal prefix
up to `k`. -/
theorem walkActive_spec (msgs : List NMessage) (hwf : JournalWF msgs) :
    ∀ (k : Nat) (hk : k < msgs.length) (fuel : Nat), k < fuel →
      ∃ w, walkActive (msgMap msgs) fuel msgs[k] = msgs[k] :: w ∧
        List.Sublist ((msgs[k] :: w).reverse) (msgs.take (k + 1)) ∧
        parentLinked (msgs[k] :: w) = true ∧
        ∃ r, (msgs[k] :: w).getLast? = some r ∧ r.parentUuid = none := by
  intro k
  induction k using Nat.strong_induction_on with
  | _ k ih =>
    intro hk fuel hfuel
    cases fuel with
    | zero => omega
    | succ f =>
      have htake : msgs.take (k + 1) = msgs.take k ++ [msgs[k]] := by
        rw [List.take_succ]
        simp [List.getElem?_eq_getElem hk]
      cases hpu : msgs[k].parentUuid with
      | none =>
        refine ⟨[], by simp [walkActive, hpu], ?_, rfl, ⟨_, rfl, hpu⟩⟩
        rw [htake]
        have hx : msgs[k] ∈ msgs.take k ++ [msgs[k]] :=
          List.mem_append_right _ (List.mem_singleton_self _)
        simpa using List.singleton_sublist.mpr hx
      | some pu =>
        obtain ⟨j, hj, hjk, hju⟩ := wf_parent_earlier msgs hwf k hk pu hpu
        have hju2 : msgs[j].uuid = pu := hju
        have hmemj : msgs[j] ∈ msgs := by
          simpa using List.get_mem msgs j hj
        have hlook : getAssoc (msgMap msgs) pu = some msgs[j] := by
          rw [← hju2]
          exact getAssoc_msgMap_of_mem msgs hwf.1 _ hmemj
        obtain ⟨w2, hw2eq, hw2sub, hw2chain, r, hw2last, hrnone⟩ :=
          ih j hjk hj f (by omega)
        refine ⟨msgs[j] :: w2, ?_, ?_, ?_, ⟨r, ?_, hrnone⟩⟩
        · simp [walkActive, hpu, hlook, hw2eq]
        · rw [List.reverse_cons]
          have hsplit := List.take_append_drop (j + 1) (msgs.take (k + 1))
          have htt : (msgs.take (k + 1)).take (j + 1) =
              msgs.take (j + 1) := by
            rw [List.take_take]
            congr 1
            omega
          have hcur : ((msgs.take (k + 1)).drop (j + 1))[k - (j + 1)]? =
              some msgs[k] := by
            rw [getElem?_drop_add]
            have harith : (j + 1) + (k - (j + 1)) = k := by omega
            rw [harith, getElem?_take_lt _ _ _ (by omega)]
            exact List.getElem?_eq_getElem hk
          have hsing : List.Sublist [msgs[k]]
              ((msgs.take (k + 1)).drop (j + 1)) :=
            List.singleton_sublist.mpr (List.getElem?_mem hcur)
          have hw2sub2 : List.Sublist ((msgs[j] :: w2).reverse)
              ((msgs.take (k + 1)).take (j + 1)) := by
            rw [htt]
            exact hw2sub
          have happ := List.Sublist.append hw2sub2 hsing
          rw [hsplit] at happ
          exact happ
        · show (decide (msgs[k].parentUuid = some msgs[j].uuid) &&
              parentLinked (msgs[j] :: w2)) = true
          rw [hpu, hju2, hw2chain]
          simp
        · rw [List.getLast?_cons_cons]
          exact hw2last

/-- Filtering a uuid-nodup journal by membership of the uuid in a
sublist's uuids recovers exactly that sublist. -/
theorem filter_uuid_sublist :
    ∀ (msgs r : List NMessage), List.Sublist r msgs →
      (msgs.map (·.uuid)).Nodup →
      msgs.filter (fun msg => decide (msg.uuid ∈ r.map (·.uuid))) = r := by
  intro msgs r hsub
  induction hsub with
  | slnil => intro _; rfl
  | cons a hsub2 ih =>
    rename_i l1 l2
    intro hnd
    rw [List.map_cons, List.nodup_cons] at hnd
    have hnotin : a.uuid ∉ l1.map (·.uuid) :=
      fun hmem => hnd.1 ((hsub2.map (·.uuid)).subset hmem)
    have hda : (decide (a.uuid ∈ l1.map (·.uuid))) = false := by
      simp [hnotin]
    rw [List.filter_cons]
    rw [hda]
    simpa using ih hnd.2
  | cons₂ a hsub2 ih =>
    rename_i l1 l2
    intro hnd
    rw [List.map_cons, List.nodup_cons] at hnd
    have hda : (decide (a.uuid ∈ (a :: l1).map (·.uuid))) = true := by
      simp
    rw [List.filter_cons, hda]
    simp only [if_true]
    have hcong : l2.filter (fun msg =>
        decide (msg.uuid ∈ (a :: l1).map (·.uuid))) =
        l2.filter (fun msg => decide (msg.uuid ∈ l1.map (·.uuid))) := by
      refine List.filter_congr ?_
      intro msg hmsg
      have hne : msg.uuid ≠ a.uuid := by
        intro he
        exact hnd.1 (he ▸ List.mem_map_of_mem (·.uuid) hmsg)
      rw [decide_eq_decide]
      simp [hne]
    rw [hcong, ih hnd.2]

/-- Every member of a parent-linked chain ending at a null-parented
message either has a null parent or points to another chain member. -/
theorem parentLinked_mem :
    ∀ (w : List NMessage) (r : NMessage), parentLinked w = true →
      w.getLast? = some r → r.parentUuid = none →
      ∀ x ∈ w, x.parentUuid = none ∨ ∃ y, y ∈ w ∧ x.parentUuid = some y.uuid := by
  intro w
  induction w with
  | nil => intro r _ _ _ x hx; cases hx
  | cons a rest ih =>
    intro r hchain hlast hnone x hx
    cases rest with
    | nil =>
      have hra : a = r := by simpa using hlast
      have hxa : x = a := by simpa using hx
      left
      rw [hxa, hra]
      exact hnone
    | cons b rest2 =>
      rw [List.getLast?_cons_cons] at hlast
      have hchain2 : (decide (a.parentUuid = some b.uuid) &&
          parentLinked (b :: rest2)) = true := hchain
      rw [Bool.and_eq_true, decide_eq_true_eq] at hchain2
      rcases List.mem_cons.mp hx with hxa | hxr
      · right
        exact ⟨b, List.mem_cons_of_mem a (List.mem_cons_self b rest2),
          hxa ▸ hchain2.1⟩
      · rcases ih r hchain2.2 hlast hnone x hxr with hn | ⟨y, hy, hxy⟩
        · left; exact hn
        · right; exact ⟨y, List.mem_cons_of_mem a hy, hxy⟩

/-- C9: on a well-formed journal (unique uuids, parents preceding their
children) ending in message `last`, the active-path filter retains
exactly the chain from `last` back to the last null-parented ancestor:
the output ends with `last`, begins with a null-parented root, its
reversal is parent-linked (a simple path with no branching), and every
retained message either has a null parent or its parent is also
retained — all off-path nodes are discarded because the filter keeps
only uuids on the walk. -/
theorem c9_active_path_filter (msgs : List NMessage) (hwf : JournalWF msgs)
    (last : NMessage) (hlast : msgs.getLast? = some last) :
    (filterByPath msgs).getLast? = some last ∧
    (∃ r, (filterByPath msgs).head? = some r ∧ r.parentUuid = none) ∧
    parentLinked ((filterByPath msgs).reverse) = true ∧
    (∀ m ∈ filterByPath msgs, m.parentUuid = none ∨
      ∃ y, y ∈ filterByPath msgs ∧ m.parentUuid = some y.uuid) := by
  have hne : msgs ≠ [] := by
    intro h
    rw [h] at hlast
    simp at hlast
  have hpos : 0 < msgs.length := List.length_pos.mpr hne
  have hk : msgs.length - 1 < msgs.length := by omega
  have hlast2 : msgs[msgs.length - 1] = last := by
    have h1 := List.getLast?_eq_getElem? msgs
    rw [hlast, List.getElem?_eq_getElem hk] at h1
    exact (Option.some.inj h1).symm
  subst hlast2
  obtain ⟨w, hweq, hwsub, hwchain, r, hwlast, hrnone⟩ :=
    walkActive_spec msgs hwf (msgs.length - 1) hk msgs.length (by omega)
  have hkk : msgs.length - 1 + 1 = msgs.length := by omega
  have hrevsub :
      List.Sublist ((msgs[msgs.length - 1] :: w).reverse) msgs := by
    rw [hkk, List.take_length] at hwsub
    exact hwsub
  have hcong : msgs.filter (fun msg => decide (msg.uuid ∈
      (msgs[msgs.length - 1] :: w).map (·.uuid))) =
      msgs.filter (fun msg => decide (msg.uuid ∈
        ((msgs[msgs.length - 1] :: w).reverse).map (·.uuid))) := by
    refine List.filter_congr ?_
    intro msg _
    rw [decide_eq_decide]
    simp only [List.map_reverse, List.mem_reverse]
  have hfb : filterByPath msgs = (msgs[msgs.length - 1] :: w).reverse := by
    simp only [filterByPath, hlast]
    rw [hweq, hcong]
    exact filter_uuid_sublist msgs _ hrevsub hwf.1
  refine ⟨?_, ?_, ?_, ?_⟩
  · rw [hfb, List.getLast?_reverse]
    rfl
  · refine ⟨r, ?_, hrnone⟩
    rw [hfb, List.head?_reverse]
    exact hwlast
  · rw [hfb, List.reverse_reverse]
    exact hwchain
  · intro m hm
    rw [hfb, List.mem_reverse] at hm
    rcases parentLinked_mem (msgs[msgs.length - 1] :: w) r hwchain hwlast
        hrnone m hm with hn | ⟨y, hy, hmy⟩
    · left; exact hn
    · right
      refine ⟨y, ?_, hmy⟩
      rw [hfb, List.mem_reverse]
      exact hy

/-- The spec's fork example: a(null) → b(a) → c(b), then a later d(b)
that supersedes c. -/
def c9Journal : List NMessage :=
  [⟨"a", none⟩, ⟨"b", some "a"⟩, ⟨"c", some "b"⟩, ⟨"d", some "b"⟩]

/-- C9 witness: on the fork journal the filter returns [a, b, d] and
drops the superseded sibling c, and the active-path conclusions hold. -/
theorem c9_witness :
    JournalWF c9Journal ∧
    c9Journal.getLast? = some ⟨"d", some "b"⟩ ∧
    filterByPath c9Journal =
      [⟨"a", none⟩, ⟨"b", some "a"⟩, ⟨"d", some "b"⟩] ∧
    ((filterByPath c9Journal).getLast? = some ⟨"d", some "b"⟩ ∧
     (∃ r, (filterByPath c9Journal).head? = some r ∧ r.parentUuid = none) ∧
     parentLinked ((filterByPath c9Journal).reverse) = true ∧
     (∀ m ∈ filterByPath c9Journal, m.parentUuid = none ∨
       ∃ y, y ∈ filterByPath c9Journal ∧ m.parentUuid = some y.uuid)) :=
  ⟨⟨by decide, by decide⟩, by decide, by decide,
   c9_active_path_filter c9Journal ⟨by decide, by decide⟩ ⟨"d", some "b"⟩
     (by decide)⟩
